import Mathlib

/-!
Verification development for a small on-disk file system consisting of a
write-back buffer cache (src/cache.c), a multi-level indexed inode layer
(src/inode.c and the alternate implementation in src/unnamed/part_001) and a
path/facade layer (src/unnamed/part_000).

The inode layer is embedded at the byte level: the combined view that the
inode code sees through the buffer cache (cache overlaying the disk) is a map
from sector numbers to 512-byte sector contents, since `cache_read` /
`cache_write` / `cache_create` provide read-your-writes semantics over whole
sectors.  Machine integers are modelled as `Nat`; 32-bit little-endian index
words are read and written through `readW` / `writeW` with explicit `% 2^32`
where overflow matters.  `off_t` quantities that the C code keeps non-negative
are modelled as `Nat`; the C comparisons and `min` computations on them agree
with the truncated-subtraction formulation used here on all reachable values.
A C `ASSERT` failure (a panic) is modelled as the `Option` result `none`.

The free-space allocator (free-map) is not part of the given sources; it is
modelled from the spec: a bitmap with first-fit allocation
(`free_map_allocate(1, ·)` returns the smallest free sector below the disk
capacity, or fails), and `free_map_release` marks a sector free.

Both inode implementations differ only in the byte offsets of the index
fields inside the on-disk inode (src/inode.c has a `bool dir` field before
`direct[]`, part_001 does not), so the index walk is embedded once,
parameterised by a `Layout` giving those offsets.
-/

namespace FsSpec

/-- Pointwise function update used to model in-place mutation of the sector
store and of the free map. -/
def updFn {α : Type} (f : Nat → α) (k : Nat) (v : α) : Nat → α :=
  fun i => if i = k then v else f i

/-- Read a 32-bit little-endian word spanning bytes [off, off+4) of a sector. -/
def readW (sec : Nat → Nat) (off : Nat) : Nat :=
  sec off + 256 * sec (off + 1) + 65536 * sec (off + 2) + 16777216 * sec (off + 3)

/-- Write a 32-bit little-endian word at bytes [off, off+4) of a sector. -/
def writeW (sec : Nat → Nat) (off w : Nat) : Nat → Nat :=
  fun i =>
    if i = off then w % 256
    else if i = off + 1 then w / 256 % 256
    else if i = off + 2 then w / 65536 % 256
    else if i = off + 3 then w / 16777216 % 256
    else sec i

/-- The state the inode layer operates on: the cache-combined sector store,
the free-map bitmap (`true` = allocated) and the disk capacity in sectors. -/
structure FS where
  store : Nat → Nat → Nat
  fm : Nat → Bool
  cap : Nat

/-- Modelled from the spec: `free_map_allocate (1, ·)` — first-fit over the
bitmap, returning the smallest free sector, failure if the disk is full.
(The free-map implementation itself is not among the given sources; only its
§4.1 contract is.) -/
def freeAlloc (fm : Nat → Bool) (cap : Nat) : Option Nat :=
  (List.range cap).find? (fun s => !fm s)

/-- One step of the index walk on a pointer slot, the body of the
`MODIFY_CACHE` macro of src/inode.c (and the corresponding inline blocks of
part_001's `byte_to_sector`): read the 32-bit slot at byte offset `off` of
sector `sector`; if it is zero, allocate a fresh sector via the free-map
(`ASSERT (success)`: allocation failure panics, modelled as `none`), store the
new index back into the slot, and zero-fill the new sector in the cache
(`cache_create` / `cache_make_empty`). Returns the sector the slot now
designates. -/
def modifyCache (fs : FS) (sector off : Nat) : Option (Nat × FS) :=
  let v := readW (fs.store sector) off
  if v = 0 then
    match freeAlloc fs.fm fs.cap with
    | none => none
    | some s =>
        some (s,
          { store := updFn (updFn fs.store sector (writeW (fs.store sector) off s)) s
              (fun _ => 0),
            fm := updFn fs.fm s true,
            cap := fs.cap })
  else some (v, fs)

/-- Byte offsets of the index fields inside the on-disk inode.  src/inode.c
(`layA`): `length` at 0, `bool dir` at 4, `direct[12]` from byte 8,
`indirect` at 56, `double_indirect` at 60.  part_001 (`layB`): `length` at 0,
`direct[12]` from byte 4, `indirect` at 52, `double_indirect` at 56. -/
structure Layout where
  dirBase : Nat
  indOff : Nat
  dblOff : Nat

/-- Field offsets of `struct inode_disk` in src/inode.c. -/
def layA : Layout := ⟨8, 56, 60⟩

/-- Field offsets of `struct inode_disk` in src/unnamed/part_001. -/
def layB : Layout := ⟨4, 52, 56⟩

/-- Well-formedness conditions on a layout shared by `layA` and `layB`:
the length word, the direct slots, `indirect` and `double_indirect` occupy
pairwise disjoint 4-byte words. -/
structure LayoutOK (lay : Layout) : Prop where
  dir_ge : 4 ≤ lay.dirBase
  ind_eq : lay.indOff = lay.dirBase + 48
  dbl_eq : lay.dblOff = lay.dirBase + 52

theorem layA_ok : LayoutOK layA := ⟨by decide, by decide, by decide⟩

theorem layB_ok : LayoutOK layB := ⟨by decide, by decide, by decide⟩

/-- `byte_to_sector`: find (and, when a slot on the way is zero, allocate)
the data sector containing byte `pos` of the inode whose on-disk inode lives
at sector `isec`.  Mirrors src/inode.c lines 63-118 and part_001 lines 52-154:
read `length`; if `pos < length` walk the direct / indirect / double-indirect
index with allocation at each zero slot; otherwise return -1 (modelled as the
inner `none`).  The outer `none` is the `ASSERT (success)` panic on free-map
exhaustion. -/
def byte_to_sector (lay : Layout) (fs : FS) (isec pos : Nat) :
    Option (Option Nat × FS) :=
  let len := readW (fs.store isec) 0
  if pos < len then
    let num := pos / 512
    if num < 12 then
      match modifyCache fs isec (lay.dirBase + 4 * num) with
      | none => none
      | some (s, fs1) => some (some s, fs1)
    else if num < 140 then
      match modifyCache fs isec lay.indOff with
      | none => none
      | some (s1, fs1) =>
        match modifyCache fs1 s1 (4 * (num - 12)) with
        | none => none
        | some (s2, fs2) => some (some s2, fs2)
    else
      match modifyCache fs isec lay.dblOff with
      | none => none
      | some (s1, fs1) =>
        match modifyCache fs1 s1 (4 * ((num - 140) / 128)) with
        | none => none
        | some (s2, fs2) =>
          match modifyCache fs2 s2 (4 * ((num - 140) % 128)) with
          | none => none
          | some (s3, fs3) => some (some s3, fs3)
  else some (none, fs)

/-- Overwrite bytes [off, off+chunk) of a sector with buffer bytes starting
at buffer index `start` (the `memcpy` inside `cache_write` for one chunk of
`inode_write_at`). -/
def writeChunk (sec : Nat → Nat) (off : Nat) (buf : Nat → Nat)
    (start chunk : Nat) : Nat → Nat :=
  fun i => if off ≤ i ∧ i < off + chunk then buf (start + (i - off)) else sec i

/-- The loop of `inode_read_at` (src/inode.c lines 342-364): per iteration,
`byte_to_sector`, re-read `length` through the cache (`inode_length`), take
`chunk = min size (min (length - offset) (512 - offset % 512))`, stop on a
non-positive chunk, else copy the chunk out of the cache and advance.  `fuel`
is an upper bound on the number of iterations; every continuing iteration
consumes at least one byte of `size`, so `fuel = size` at the entry point
makes the fuel bound unreachable. -/
def readLoop (lay : Layout) (isec : Nat) :
    Nat → FS → Nat → Nat → Option (List Nat × FS)
  | 0, fs, size, _ => if size = 0 then some ([], fs) else none
  | fuel + 1, fs, size, offset =>
    if size = 0 then some ([], fs)
    else
      match byte_to_sector lay fs isec offset with
      | none => none
      | some (so, fs1) =>
        let sector := so.getD 4294967295
        let sector_ofs := offset % 512
        let len := readW (fs1.store isec) 0
        let chunk := min size (min (len - offset) (512 - sector_ofs))
        if chunk = 0 then some ([], fs1)
        else
          match readLoop lay isec fuel fs1 (size - chunk) (offset + chunk) with
          | none => none
          | some (rest, fs2) =>
            some ((List.range chunk).map (fun i => fs1.store sector (sector_ofs + i))
                    ++ rest, fs2)

/-- `inode_read_at (inode, buffer, size, offset)` of src/inode.c, returning
the bytes read and the final state (`none` models the `ASSERT` panic on
free-map exhaustion inside the walk). -/
def inode_read_at (fs : FS) (isec size offset : Nat) : Option (List Nat × FS) :=
  readLoop layA isec size fs size offset

/-- The loop of src/inode.c `inode_write_at` (lines 389-411): the chunk bound
uses the local variable `length` computed once before the loop. -/
def writeLoopA (lay : Layout) (isec : Nat) (buf : Nat → Nat) (length : Nat) :
    Nat → FS → Nat → Nat → Nat → Option (Nat × FS)
  | 0, fs, written, size, _ => if size = 0 then some (written, fs) else none
  | fuel + 1, fs, written, size, offset =>
    if size = 0 then some (written, fs)
    else
      match byte_to_sector lay fs isec offset with
      | none => none
      | some (so, fs1) =>
        let sector := so.getD 4294967295
        let sector_ofs := offset % 512
        let chunk := min size (min (length - offset) (512 - sector_ofs))
        if chunk = 0 then some (written, fs1)
        else
          writeLoopA lay isec buf length fuel
            { fs1 with store := (updFn fs1.store sector
                (writeChunk (fs1.store sector) sector_ofs buf written chunk)) }
            (written + chunk) (size - chunk) (offset + chunk)

/-- `inode_write_at (inode, buffer, size, offset)` of src/inode.c (lines
374-414): reject if `deny_write_cnt` is non-zero; extend `length` to
`max length (size + offset)` and write the new length word back through the
cache on the inode sector before the data loop. -/
def inode_write_at (fs : FS) (isec deny : Nat) (buf : Nat → Nat)
    (size offset : Nat) : Option (Nat × FS) :=
  if deny ≠ 0 then some (0, fs)
  else
    let len0 := readW (fs.store isec) 0
    let length := if len0 < size + offset then size + offset else len0
    writeLoopA layA isec buf length size
      { fs with store := updFn fs.store isec (writeW (fs.store isec) 0 length) }
      0 size offset

/-- The loop of part_001 `inode_write_at` (lines 391-416): identical to the
src/inode.c loop except that there is no length extension and the chunk bound
re-reads `inode_length (inode)` through the cache on every iteration. -/
def writeLoopB (lay : Layout) (isec : Nat) (buf : Nat → Nat) :
    Nat → FS → Nat → Nat → Nat → Option (Nat × FS)
  | 0, fs, written, size, _ => if size = 0 then some (written, fs) else none
  | fuel + 1, fs, written, size, offset =>
    if size = 0 then some (written, fs)
    else
      match byte_to_sector lay fs isec offset with
      | none => none
      | some (so, fs1) =>
        let sector := so.getD 4294967295
        let sector_ofs := offset % 512
        let len := readW (fs1.store isec) 0
        let chunk := min size (min (len - offset) (512 - sector_ofs))
        if chunk = 0 then some (written, fs1)
        else
          writeLoopB lay isec buf fuel
            { fs1 with store := (updFn fs1.store sector
                (writeChunk (fs1.store sector) sector_ofs buf written chunk)) }
            (written + chunk) (size - chunk) (offset + chunk)

/-- `inode_write_at` of src/unnamed/part_001 (lines 380-419): no growth — the
write is truncated at the current on-disk `length`. -/
def inode_write_atB (fs : FS) (isec deny : Nat) (buf : Nat → Nat)
    (size offset : Nat) : Option (Nat × FS) :=
  if deny ≠ 0 then some (0, fs)
  else writeLoopB layB isec buf size fs 0 size offset

/-- INODE_MAGIC = 0x494e4f44. -/
def INODE_MAGIC : Nat := 0x494e4f44

/-- `inode_create (sector, length)` of src/inode.c (lines 139-161): build a
zeroed `struct inode_disk` with `length` and `magic` set; if `sector == 0`
additionally allocate one sector from the free-map into `direct[0]`
(`ASSERT`ing success); then `cache_create (sector)` and write the struct into
the cache.  The magic word sits at byte offset 64 of the src/inode.c layout;
the bytes past the struct stay zero from `cache_create`'s zero-fill. -/
def inode_create (fs : FS) (sector len : Nat) : Option (Bool × FS) :=
  let d0 := writeW (writeW (fun _ => 0) 0 len) 64 INODE_MAGIC
  if sector = 0 then
    match freeAlloc fs.fm fs.cap with
    | none => none
    | some s =>
        some (true,
          { store := updFn fs.store sector (writeW d0 8 s),
            fm := updFn fs.fm s true,
            cap := fs.cap })
  else some (true, { fs with store := updFn fs.store sector d0 })

/-- The sequence of `free_map_release` calls performed by src/inode.c
`inode_close` (lines 239-319) when the last opener closes a removed inode, in
call order: the inode sector itself, each non-zero direct slot, the indirect
sector followed by its non-zero slots, the double-indirect sector, and for
each non-zero first-level slot `indirect[i]` the sector `indirect[i]` followed
by — for every `j` with `double_indirect[j] != 0` — a release of
`double_indirect[i]` (the `i`/`j` mix-up of line 313 is reproduced
faithfully). -/
def closeReleases (fs : FS) (isec : Nat) : List Nat :=
  let ino := fs.store isec
  let directRel := (List.range 12).filterMap (fun i =>
    let v := readW ino (8 + 4 * i)
    if v = 0 then none else some v)
  let ind := readW ino 56
  let dbl := readW ino 60
  let indRel :=
    if ind = 0 then []
    else ind :: (List.range 128).filterMap (fun i =>
      let v := readW (fs.store ind) (4 * i)
      if v = 0 then none else some v)
  let dblRel :=
    if dbl = 0 then []
    else dbl :: ((List.range 128).map (fun i =>
      let li := readW (fs.store dbl) (4 * i)
      if li = 0 then []
      else li :: (List.range 128).filterMap (fun j =>
        if readW (fs.store li) (4 * j) = 0 then none
        else some (readW (fs.store li) (4 * i))))).flatten
  isec :: (directRel ++ indRel ++ dblRel)

/-! ## Buffer cache model (src/cache.c)

A cache state is the slot list (front = most recently used, as in `caches`)
together with the disk contents.  Slot data is a 512-byte buffer modelled as
`Nat → Nat`.  The `ASSERT (off + size <= DISK_SECTOR_SIZE)` programmer-error
aborts are outside the claims considered here and are not modelled. -/

/-- One cache slot: `struct cache` of src/cache.h. -/
structure CSlot where
  sector : Nat
  dirty : Bool
  data : Nat → Nat

/-- The cache state: the slot list `caches` plus the disk. -/
structure CState where
  slots : List CSlot
  disk : Nat → Nat → Nat

/-- `CACHE_MAX` of src/cache.h. -/
def CACHE_MAX : Nat := 64

/-- `cache_save`: write a slot to disk if its dirty bit is set (the dirty bit
itself is left untouched, as in the source). -/
def cache_save (c : CSlot) (disk : Nat → Nat → Nat) : Nat → Nat → Nat :=
  if c.dirty then updFn disk c.sector c.data else disk

/-- `cache_save_all`: iterate `cache_save` over the slot list front to back. -/
def cache_save_all (l : List CSlot) (disk : Nat → Nat → Nat) : Nat → Nat → Nat :=
  l.foldl (fun d c => cache_save c d) disk

/-- `cache_backup`: flush every dirty slot to disk; the slot list and the
dirty bits are unchanged. -/
def cache_backup (st : CState) : CState :=
  { st with disk := cache_save_all st.slots st.disk }

/-- `cache_evict`: pop the tail (least recently used) slot, write it to disk
if dirty, discard it.  (In the source this is only ever called with a full,
hence non-empty, list; on an empty list we model it as a no-op.) -/
def cache_evict (st : CState) : CState :=
  match st.slots.getLast? with
  | none => st
  | some c => { slots := st.slots.dropLast, disk := cache_save c st.disk }

/-- `cache_make`: evict if the cache is full, then insert a fresh slot at the
front — zero-filled, or loaded from disk when `read` is set. -/
def cache_make (st : CState) (sector : Nat) (read : Bool) : CSlot × CState :=
  let st1 := if st.slots.length = CACHE_MAX then cache_evict st else st
  let c : CSlot := ⟨sector, false, if read then st1.disk sector else fun _ => 0⟩
  (c, { st1 with slots := c :: st1.slots })

/-- `cache_create (sector)`: insert a fresh zero slot without a disk read. -/
def cache_createOp (st : CState) (sector : Nat) : CState :=
  (cache_make st sector false).2

/-- State effect of `cache_read (sector, buf, off, n)`: ensure the slot
exists (loading from disk if absent) and move it to the front; `n = 0` is a
no-op. -/
def cache_readOp (st : CState) (sector : Nat) (n : Nat) : CState :=
  if n = 0 then st
  else
    match st.slots.find? (fun c => c.sector == sector) with
    | some c =>
        { st with slots := c :: st.slots.eraseP (fun c => c.sector == sector) }
    | none =>
        let m := cache_make st sector true
        { m.2 with slots := m.1 :: m.2.slots.eraseP (fun c => c.sector == sector) }

/-- `cache_write (sector, buf, off, n)`: ensure the slot exists, copy `buf`
into bytes [off, off+n), set the dirty bit, move the slot to the front;
`n = 0` is a no-op. -/
def cache_writeOp (st : CState) (sector : Nat) (buf : Nat → Nat) (off n : Nat) :
    CState :=
  if n = 0 then st
  else
    match st.slots.find? (fun c => c.sector == sector) with
    | some c =>
        { st with slots :=
            ⟨c.sector, true, writeChunk c.data off buf 0 n⟩ ::
              st.slots.eraseP (fun c => c.sector == sector) }
    | none =>
        let m := cache_make st sector true
        { m.2 with slots :=
            ⟨m.1.sector, true, writeChunk m.1.data off buf 0 n⟩ ::
              m.2.slots.eraseP (fun c => c.sector == sector) }

/-- `cache_remove (sector)`: discard the slot, if any, without write-back. -/
def cache_removeOp (st : CState) (sector : Nat) : CState :=
  { st with slots := st.slots.eraseP (fun c => c.sector == sector) }

/-- `cache_done`: flush all dirty slots, then free every slot. -/
def cache_doneOp (st : CState) : CState :=
  { slots := [], disk := cache_save_all st.slots st.disk }

/-- Cache states reachable from `cache_init` (empty slot list, any disk) by
the public cache operations. -/
inductive Reach : CState → Prop where
  | init : ∀ disk, Reach ⟨[], disk⟩
  | readOp : ∀ {st} sector n, Reach st → Reach (cache_readOp st sector n)
  | writeOp : ∀ {st} sector buf off n, Reach st → Reach (cache_writeOp st sector buf off n)
  | createOp : ∀ {st} sector, Reach st → Reach (cache_createOp st sector)
  | removeOp : ∀ {st} sector, Reach st → Reach (cache_removeOp st sector)
  | backupOp : ∀ {st}, Reach st → Reach (cache_backup st)
  | doneOp : ∀ {st}, Reach st → Reach (cache_doneOp st)

/-! ## Inode handle counters (src/inode.c lines 200-233, 416-434)

The `open_cnt` / `deny_write_cnt` fields of `struct inode` with the
operations that touch them, and the §4.3 calling discipline as a step
relation: each opener calls `inode_deny_write` at most once before balancing
it with `inode_allow_write`, and closes only with its denial balanced.  The
ghost numbers `p` and `d` count the live openers without and with an
outstanding denial. -/

/-- The counter fields of the in-memory `struct inode`. -/
structure InodeCnt where
  open_cnt : Int
  deny_write_cnt : Int

/-- `inode_reopen` (also the sharing path of `inode_open`). -/
def inode_reopenC (h : InodeCnt) : InodeCnt :=
  { h with open_cnt := h.open_cnt + 1 }

/-- `inode_deny_write`. -/
def inode_deny_writeC (h : InodeCnt) : InodeCnt :=
  { h with deny_write_cnt := h.deny_write_cnt + 1 }

/-- `inode_allow_write`. -/
def inode_allow_writeC (h : InodeCnt) : InodeCnt :=
  { h with deny_write_cnt := h.deny_write_cnt - 1 }

/-- The `--inode->open_cnt` step of `inode_close`. -/
def inode_closeC (h : InodeCnt) : InodeCnt :=
  { h with open_cnt := h.open_cnt - 1 }

/-- Handle states reachable under the §4.3 calling discipline from a fresh
`inode_open` (`open_cnt = 1`, `deny_write_cnt = 0`). -/
inductive Disc : InodeCnt → Nat → Nat → Prop where
  | openNew : Disc ⟨1, 0⟩ 1 0
  | reopen : ∀ {h p d}, Disc h p d → Disc (inode_reopenC h) (p + 1) d
  | deny : ∀ {h p d}, Disc h (p + 1) d → Disc (inode_deny_writeC h) p (d + 1)
  | allow : ∀ {h p d}, Disc h p (d + 1) → Disc (inode_allow_writeC h) (p + 1) d
  | close : ∀ {h p d}, Disc h (p + 1) d → Disc (inode_closeC h) p d

/-! ## Concrete states used by the bug demonstrations and counterexamples -/

/-- A removed inode at sector 1 whose index holds one double-indirect tree:
`double_indirect = 5`, first-level slot 0 of sector 5 is 6, and second-level
slot 1 of sector 6 is sector 7.  Sectors 0-7 allocated. -/
def stC1 : FS :=
  ⟨fun s i =>
    if s = 1 ∧ i = 60 then 5
    else if s = 5 ∧ i = 0 then 6
    else if s = 6 ∧ i = 4 then 7
    else 0,
   fun s => decide (s < 8), 100⟩

/-- A freshly created sparse inode at sector 1 with `length = 512` (byte 1 of
the inode sector is 2) and every index slot zero; sectors 0 and 1 allocated,
plenty of free space. -/
def stC3 : FS :=
  ⟨fun s i => if s = 1 ∧ i = 1 then 2 else 0, fun s => decide (s < 2), 100⟩

/-- An empty inode at sector 1 on a completely full disk (every sector below
the capacity is allocated). -/
def stC4 : FS := ⟨fun _ _ => 0, fun _ => true, 8⟩

/-- Initial state for the `inode_create` counterexample: zero store, sectors
0 and 1 allocated. -/
def stC6 : FS := ⟨fun _ _ => 0, fun s => decide (s < 2), 100⟩

/-- An empty inode (length 0, no blocks) at sector 1: the state on which the
two `inode_write_at` implementations disagree. -/
def stC10 : FS := ⟨fun _ _ => 0, fun s => decide (s < 2), 100⟩

set_option maxRecDepth 100000 in
/-- C1: src/inode.c line 313 releases `double_indirect[i]` in place of
`double_indirect[j]`.  On `stC1` the release sequence of `inode_close` is
`[1, 5, 6, 0]`: the data sector 7 held by second-level slot `j = 1` is never
released, while the unallocated sector number held by slot `i = 0` — namely
0, the reserved free-map sector — is released instead.  The claim (release
every non-zero second-level slot exactly once) fails on the code. -/
theorem c1_double_indirect_release_bug :
    closeReleases stC1 1 = [1, 5, 6, 0] ∧
    readW (stC1.store 6) 4 = 7 ∧
    7 ∉ closeReleases stC1 1 ∧
    0 ∈ closeReleases stC1 1 := by
  refine ⟨by decide, by decide, by decide, by decide⟩

/-- C3: the index walk of src/inode.c allocates on zero slots even when
called from `inode_read_at`.  On `stC3` (a sparse file of length 512 with no
data blocks, direct slot 0 zero, sector 2 free) a 1-byte read at offset 0
succeeds, flips the free-map bit of sector 2 and stores 2 into direct slot 0
of the inode sector — a read allocated a sector and modified an index slot. -/
theorem c3_read_allocates :
    stC3.fm 2 = false ∧
    readW (stC3.store 1) 8 = 0 ∧
    (inode_read_at stC3 1 1 0).map
        (fun r => (r.1.length, r.2.fm 2, readW (r.2.store 1) 8)) =
      some (1, true, 2) := by
  refine ⟨by decide, by decide, by decide⟩

/-- C4: on free-map exhaustion the index walk executes `ASSERT (success)`
(src/inode.c line 23) and panics instead of returning a short byte count: on
the full disk `stC4` a 1-byte write at offset 0 aborts (modelled as `none`)
rather than returning failure to the caller. -/
theorem c4_alloc_failure_panics :
    freeAlloc stC4.fm stC4.cap = none ∧
    (inode_write_at stC4 1 0 (fun _ => 7) 1 0).isSome = false := by
  refine ⟨by decide, by decide⟩

/-- C6 counterexample: `inode_create (0, 5)` on `stC6` allocates a data
block from the free-map at create time (sector 2, whose free-map bit flips)
and stores it into pointer slot `direct[0]` — refuting, at `sector = 0`, the
claim that create zeroes all pointer slots and allocates nothing. -/
theorem c6_counterexample :
    stC6.fm 2 = false ∧
    (inode_create stC6 0 5).map
        (fun r => (r.1, readW (r.2.store 0) 8, r.2.fm 2)) =
      some (true, 2, true) := by
  refine ⟨by decide, by decide⟩

/-- C10 counterexample: on the empty inode `stC10`, a 1-byte write at offset
0 returns 1 under src/inode.c (which first extends `length`) but 0 under
part_001 (which truncates at the current length 0) — the two write paths are
not extensionally equal. -/
theorem c10_counterexample :
    (inode_write_at stC10 1 0 (fun _ => 7) 1 0).map (fun r => r.1) = some 1 ∧
    (inode_write_atB stC10 1 0 (fun _ => 7) 1 0).map (fun r => r.1) = some 0 := by
  refine ⟨by decide, by decide⟩

/-! ## C9: the deny-write invariant -/

/-- Under the discipline, `open_cnt` is the number of live openers and
`deny_write_cnt` the number of openers with an outstanding denial. -/
theorem disc_counts {h : InodeCnt} {p d : Nat} (hd : Disc h p d) :
    h.open_cnt = (p : Int) + (d : Int) ∧ h.deny_write_cnt = (d : Int) := by
  induction hd with
  | openNew => exact ⟨by norm_num, by norm_num⟩
  | reopen _ ih =>
      simp only [inode_reopenC] at *
      push_cast at *
      omega
  | deny _ ih =>
      simp only [inode_deny_writeC] at *
      push_cast at *
      omega
  | allow _ ih =>
      simp only [inode_allow_writeC] at *
      push_cast at *
      omega
  | close _ ih =>
      simp only [inode_closeC] at *
      push_cast at *
      omega

/-- C9: along every operation sequence respecting the §4.3 calling
discipline, `0 ≤ deny_write_cnt ≤ open_cnt` holds in every reachable handle
state. -/
theorem c9_deny_write_invariant {h : InodeCnt} {p d : Nat} (hd : Disc h p d) :
    0 ≤ h.deny_write_cnt ∧ h.deny_write_cnt ≤ h.open_cnt := by
  obtain ⟨ho, hdc⟩ := disc_counts hd
  rw [ho, hdc]
  constructor <;> omega

/-- Witness for C9 at the concrete state reached by open, reopen,
deny_write: `open_cnt = 2`, `deny_write_cnt = 1`. -/
theorem c9_witness :
    0 ≤ (InodeCnt.mk 2 1).deny_write_cnt ∧
      (InodeCnt.mk 2 1).deny_write_cnt ≤ (InodeCnt.mk 2 1).open_cnt := by
  have h := c9_deny_write_invariant (Disc.deny (Disc.reopen Disc.openNew))
  simp only [inode_deny_writeC, inode_reopenC] at h
  exact h

/-! ## C8: backup idempotence -/

theorem updFn_same {α : Type} (f : Nat → α) (k : Nat) (v : α) :
    updFn f k v k = v := if_pos rfl

theorem updFn_other {α : Type} (f : Nat → α) (k : Nat) (v : α) {i : Nat}
    (h : i ≠ k) : updFn f k v i = f i := if_neg h

/-- The last dirty slot of the list for a given sector, if any (iterating
front to back, a later matching slot overwrites an earlier one, so the last
one determines the final disk contents). -/
def lastDirty (l : List CSlot) (s : Nat) : Option CSlot :=
  l.reverse.find? (fun c => c.dirty && c.sector == s)

theorem find?_append_of_some {α : Type} (p : α → Bool) {l1 : List α}
    (l2 : List α) {a : α} (h : l1.find? p = some a) :
    (l1 ++ l2).find? p = some a := by
  induction l1 with
  | nil => simp at h
  | cons x t ih =>
    rw [List.cons_append]
    by_cases hx : p x = true
    · rw [List.find?_cons_of_pos _ hx] at h ⊢
      exact h
    · rw [List.find?_cons_of_neg _ hx] at h ⊢
      exact ih h

theorem find?_append_of_none {α : Type} (p : α → Bool) {l1 : List α}
    (l2 : List α) (h : l1.find? p = none) :
    (l1 ++ l2).find? p = l2.find? p := by
  induction l1 with
  | nil => simp
  | cons x t ih =>
    rw [List.cons_append]
    by_cases hx : p x = true
    · rw [List.find?_cons_of_pos _ hx] at h
      exact absurd h (by simp)
    · rw [List.find?_cons_of_neg _ hx] at h ⊢
      exact ih h

/-- The disk sector `s` after `cache_save_all` is the data of the last dirty
slot for `s`, or the old contents if there is none. -/
theorem cache_save_all_apply (l : List CSlot) (d : Nat → Nat → Nat) (s : Nat) :
    cache_save_all l d s =
      match lastDirty l s with
      | some c => c.data
      | none => d s := by
  induction l generalizing d with
  | nil => rfl
  | cons c t ih =>
    have hstep : cache_save_all (c :: t) d = cache_save_all t (cache_save c d) := rfl
    rw [hstep, ih]
    have hrev : (c :: t).reverse = t.reverse ++ [c] := by simp
    unfold lastDirty
    rw [hrev]
    cases hft : t.reverse.find? (fun c => c.dirty && c.sector == s) with
    | some c1 =>
        rw [find?_append_of_some _ _ hft]
    | none =>
        rw [find?_append_of_none _ _ hft]
        by_cases hc : (c.dirty && c.sector == s) = true
        · simp only [List.find?_cons, List.find?_nil, hc]
          have h1 : c.dirty = true := by
            cases hb : c.dirty
            · rw [hb] at hc
              simp at hc
            · rfl
          have h2 : c.sector = s := by
            cases hb : (c.sector == s)
            · rw [hb] at hc
              simp at hc
            · exact beq_iff_eq.mp hb
          show cache_save c d s = c.data
          rw [cache_save, if_pos h1, ← h2, updFn_same]
        · have hc' : (c.dirty && c.sector == s) = false := by
            cases hb : (c.dirty && c.sector == s)
            · rfl
            · exact absurd hb hc
          simp only [List.find?_cons, List.find?_nil, hc']
          show cache_save c d s = d s
          rw [cache_save]
          by_cases hd1 : c.dirty = true
          · have h2 : ¬ c.sector = s := by
              intro he
              exact hc (by rw [hd1, he]; simp)
            rw [if_pos hd1, updFn_other _ _ _ (fun he => h2 he.symm)]
          · rw [if_neg hd1]

/-- C8: calling `cache_backup` twice in a row with no interleaved cache
operations leaves the disk after the second call identical to the disk after
the first call — `cache_backup` does not change the slot list or the slot
data, and re-writing every dirty slot stores the same bytes again. -/
theorem c8_backup_idempotent (st : CState) :
    (cache_backup (cache_backup st)).disk = (cache_backup st).disk := by
  funext s
  show cache_save_all st.slots (cache_save_all st.slots st.disk) s =
    cache_save_all st.slots st.disk s
  rw [cache_save_all_apply, cache_save_all_apply]
  cases h : lastDirty st.slots s with
  | some c => simp [h]
  | none => simp [h]

/-! ## C7: cache bound and tail eviction -/

theorem cache_evict_len (st : CState) :
    (cache_evict st).slots.length = st.slots.length - 1 := by
  unfold cache_evict
  cases h : st.slots.getLast? with
  | none =>
      have : st.slots = [] := List.getLast?_eq_none_iff.mp h
      simp [this]
  | some c => simp [List.length_dropLast]

theorem cache_make_len (st : CState) (sector : Nat) (read : Bool)
    (h : st.slots.length ≤ CACHE_MAX) :
    (cache_make st sector read).2.slots.length ≤ CACHE_MAX := by
  unfold cache_make
  by_cases hfull : st.slots.length = CACHE_MAX
  · simp only [hfull, if_true]
    simp [cache_evict_len, hfull, CACHE_MAX]
  · simp only [hfull, if_false]
    simp only [List.length_cons]
    have : st.slots.length < CACHE_MAX := lt_of_le_of_ne h hfull
    omega

theorem length_eraseP_of_find?_some {α : Type} (p : α → Bool) (l : List α)
    (a : α) (h : l.find? p = some a) : (l.eraseP p).length + 1 = l.length := by
  induction l with
  | nil => simp at h
  | cons x t ih =>
    by_cases px : p x = true
    · rw [List.eraseP_cons_of_pos px, List.length_cons]
    · rw [List.find?_cons_of_neg _ px] at h
      rw [List.eraseP_cons_of_neg px]
      simp only [List.length_cons]
      rw [ih h]

theorem cache_readOp_len (st : CState) (sector n : Nat)
    (h : st.slots.length ≤ CACHE_MAX) :
    (cache_readOp st sector n).slots.length ≤ CACHE_MAX := by
  unfold cache_readOp
  by_cases hn : n = 0
  · simpa [hn]
  · simp only [hn, if_false]
    cases hf : st.slots.find? (fun c => c.sector == sector) with
    | some c =>
        simp only [List.length_cons]
        have := length_eraseP_of_find?_some _ _ _ hf
        omega
    | none =>
        have hmk := cache_make_len st sector true h
        simp only [cache_make] at hmk ⊢
        simp only [List.length_cons] at hmk ⊢
        rw [List.eraseP_cons_of_pos (by simp)]
        exact hmk

theorem cache_writeOp_len (st : CState) (sector : Nat) (buf : Nat → Nat)
    (off n : Nat) (h : st.slots.length ≤ CACHE_MAX) :
    (cache_writeOp st sector buf off n).slots.length ≤ CACHE_MAX := by
  unfold cache_writeOp
  by_cases hn : n = 0
  · simpa [hn]
  · simp only [hn, if_false]
    cases hf : st.slots.find? (fun c => c.sector == sector) with
    | some c =>
        simp only [List.length_cons]
        have := length_eraseP_of_find?_some _ _ _ hf
        omega
    | none =>
        have hmk := cache_make_len st sector true h
        simp only [cache_make] at hmk ⊢
        simp only [List.length_cons] at hmk ⊢
        rw [List.eraseP_cons_of_pos (by simp)]
        exact hmk

/-- C7: (a) every reachable cache state holds at most `CACHE_MAX = 64`
slots; (b) when a new slot is made while the count is exactly 64,
`cache_make` discards exactly the tail slot — the new slot list is the fresh
slot in front of all old slots but the last — and the tail is written to
disk if and only if its dirty bit is set. -/
theorem c7_cache_bound_and_lru_evict :
    (∀ st, Reach st → st.slots.length ≤ CACHE_MAX) ∧
    (∀ st sector read l c, st.slots = l ++ [c] → st.slots.length = CACHE_MAX →
      (cache_make st sector read).2.slots =
        (⟨sector, false,
            if read then cache_save c st.disk sector else fun _ => 0⟩ : CSlot) ::
          l ∧
      (cache_make st sector read).2.disk =
        (if c.dirty then updFn st.disk c.sector c.data else st.disk)) := by
  constructor
  · intro st h
    induction h with
    | init disk => simp
    | readOp sector n _ ih => exact cache_readOp_len _ sector n ih
    | writeOp sector buf off n _ ih => exact cache_writeOp_len _ sector buf off n ih
    | createOp sector _ ih => exact cache_make_len _ sector false ih
    | removeOp sector _ ih =>
        calc (cache_removeOp _ sector).slots.length
            ≤ _ := List.length_eraseP_le _
          _ ≤ CACHE_MAX := ih
    | backupOp _ ih => exact ih
    | doneOp _ ih => simp [cache_doneOp]
  · intro st sector read l c hconcat hfull
    have hev : cache_evict st =
        { slots := l, disk := cache_save c st.disk } := by
      unfold cache_evict
      rw [hconcat]
      simp [List.getLast?_concat, List.dropLast_concat]
    unfold cache_make
    rw [if_pos hfull, hev]
    exact ⟨rfl, rfl⟩

/-- A full cache of 64 identical clean slots used to instantiate the
eviction half of the C7 theorem. -/
def st7 : CState := ⟨List.replicate 64 ⟨5, false, fun _ => 0⟩, fun _ _ => 0⟩

/-- Witness for C7: the initial cache state is reachable and within bound,
and on the concrete full state `st7` making a new slot discards exactly the
tail (which is clean, so the disk is untouched). -/
theorem c7_witness :
    (CState.mk [] (fun _ _ => 0)).slots.length ≤ CACHE_MAX ∧
    (cache_make st7 9 false).2.slots =
      (⟨9, false, fun _ => 0⟩ : CSlot) :: List.replicate 63 ⟨5, false, fun _ => 0⟩ ∧
    (cache_make st7 9 false).2.disk = st7.disk := by
  have hsplit : st7.slots =
      List.replicate 63 (⟨5, false, fun _ => 0⟩ : CSlot) ++ [⟨5, false, fun _ => 0⟩] :=
    List.replicate_succ' 63 _
  have hlen : st7.slots.length = CACHE_MAX := by
    simp [st7, CACHE_MAX]
  have h := c7_cache_bound_and_lru_evict.2 st7 9 false
    (List.replicate 63 ⟨5, false, fun _ => 0⟩) ⟨5, false, fun _ => 0⟩ hsplit hlen
  refine ⟨c7_cache_bound_and_lru_evict.1 _ (Reach.init _), ?_, ?_⟩
  · simpa using h.1
  · simpa using h.2

/-! ## The index tree: positions, slot addresses, well-formedness

`Pos` names the nodes of an inode's index tree: the inode sector itself
(`root`), the indirect sector (`ind`), the double-indirect sector (`dbl`),
first-level block `i` of the double-indirect tree (`lvl1 i`, `i < 128`) and
the data block for file block number `b` (`dat b`, `b < 12 + 128 + 128*128`).
`secAt` reads the sector number currently stored for a position (0 when the
chain to it is broken); it mirrors exactly the slot reads the walk performs. -/

inductive Pos where
  | root : Pos
  | ind : Pos
  | dbl : Pos
  | lvl1 : Nat → Pos
  | dat : Nat → Pos
deriving DecidableEq

/-- Valid positions: slot indices within the index bounds of §3
(D = 12, N = 128, max block number D + N + N² = 16524). -/
def validP : Pos → Bool
  | .root => true
  | .ind => true
  | .dbl => true
  | .lvl1 i => decide (i < 128)
  | .dat b => decide (b < 16524)

/-- The parent node of a position in the index tree. -/
def parentPos : Pos → Pos
  | .root => .root
  | .ind => .root
  | .dbl => .root
  | .lvl1 _ => .dbl
  | .dat b =>
      if b < 12 then .root
      else if b < 140 then .ind
      else .lvl1 ((b - 140) / 128)

/-- The byte offset, within the parent's sector, of the 32-bit slot that
stores a position's sector number. -/
def parentOff (lay : Layout) : Pos → Nat
  | .root => 0
  | .ind => lay.indOff
  | .dbl => lay.dblOff
  | .lvl1 i => 4 * i
  | .dat b =>
      if b < 12 then lay.dirBase + 4 * b
      else if b < 140 then 4 * (b - 12)
      else 4 * ((b - 140) % 128)

/-- Depth of a position in the index tree. -/
def pdepth : Pos → Nat
  | .root => 0
  | .ind => 1
  | .dbl => 1
  | .lvl1 _ => 2
  | .dat b => if b < 12 then 1 else if b < 140 then 2 else 3

/-- The sector number the index currently stores for a position; 0 when any
slot on the chain from the root is 0. -/
def secAt (lay : Layout) (fs : FS) (isec : Nat) : Pos → Nat
  | .root => isec
  | .ind => readW (fs.store isec) lay.indOff
  | .dbl => readW (fs.store isec) lay.dblOff
  | .lvl1 i =>
      let d := readW (fs.store isec) lay.dblOff
      if d = 0 then 0 else readW (fs.store d) (4 * i)
  | .dat b =>
      if b < 12 then readW (fs.store isec) (lay.dirBase + 4 * b)
      else if b < 140 then
        let ind := readW (fs.store isec) lay.indOff
        if ind = 0 then 0 else readW (fs.store ind) (4 * (b - 12))
      else
        let d := readW (fs.store isec) lay.dblOff
        if d = 0 then 0 else
          let l := readW (fs.store d) (4 * ((b - 140) / 128))
          if l = 0 then 0 else readW (fs.store l) (4 * ((b - 140) % 128))

/-- Maximum file size in bytes: (D + N + N²) · S = 16524 · 512 (§3). -/
def MAXB : Nat := 8460288

/-- Well-formedness of an inode state, the invariant of reachable states the
inode layer maintains for an open inode at sector `isec`: the inode sector is
a proper sector (non-zero, allocated — sector 0 is the reserved free-map
inode, always allocated), every sector stored in the index tree is allocated
and below the capacity, distinct tree positions hold distinct sectors, the
capacity fits 32-bit sector numbers, and the stored length is a non-negative
`off_t` value. -/
structure WF (lay : Layout) (fs : FS) (isec : Nat) : Prop where
  isec_pos : 0 < isec
  fm_zero : fs.fm 0 = true
  cap_le : fs.cap ≤ 4294967296
  len_le : readW (fs.store isec) 0 ≤ MAXB
  good : ∀ p, validP p = true → secAt lay fs isec p ≠ 0 →
      secAt lay fs isec p < fs.cap ∧ fs.fm (secAt lay fs isec p) = true
  inj : ∀ p q, validP p = true → validP q = true → secAt lay fs isec p ≠ 0 →
      secAt lay fs isec q ≠ 0 → secAt lay fs isec p = secAt lay fs isec q → p = q

/-! ### Little-endian word algebra -/

theorem readW_writeW_self (f : Nat → Nat) (off w : Nat) (h : w < 4294967296) :
    readW (writeW f off w) off = w := by
  have e0 : writeW f off w off = w % 256 := by
    unfold writeW
    rw [if_pos rfl]
  have e1 : writeW f off w (off + 1) = w / 256 % 256 := by
    unfold writeW
    rw [if_neg (by omega), if_pos rfl]
  have e2 : writeW f off w (off + 2) = w / 65536 % 256 := by
    unfold writeW
    rw [if_neg (by omega), if_neg (by omega), if_pos rfl]
  have e3 : writeW f off w (off + 3) = w / 16777216 % 256 := by
    unfold writeW
    rw [if_neg (by omega), if_neg (by omega), if_neg (by omega), if_pos rfl]
  unfold readW
  rw [e0, e1, e2, e3]
  omega

theorem writeW_at_of_disjoint (f : Nat → Nat) (off w i : Nat)
    (h : i + 1 ≤ off ∨ off + 4 ≤ i) : writeW f off w i = f i := by
  unfold writeW
  have h0 : i ≠ off := by omega
  have h1 : i ≠ off + 1 := by omega
  have h2 : i ≠ off + 2 := by omega
  have h3 : i ≠ off + 3 := by omega
  simp only [if_neg h0, if_neg h1, if_neg h2, if_neg h3]

theorem readW_writeW_disjoint (f : Nat → Nat) (off w off' : Nat)
    (h : off' + 4 ≤ off ∨ off + 4 ≤ off') :
    readW (writeW f off w) off' = readW f off' := by
  unfold readW
  rw [writeW_at_of_disjoint _ _ _ _ (by omega),
    writeW_at_of_disjoint _ _ _ _ (by omega),
    writeW_at_of_disjoint _ _ _ _ (by omega),
    writeW_at_of_disjoint _ _ _ _ (by omega)]

theorem readW_zero (off : Nat) : readW (fun _ => 0) off = 0 := rfl

/-! ### Position bookkeeping -/

theorem validP_parent {p : Pos} (h : validP p = true) :
    validP (parentPos p) = true := by
  cases p with
  | root => rfl
  | ind => rfl
  | dbl => rfl
  | lvl1 i => rfl
  | dat b =>
      simp only [validP, decide_eq_true_eq] at h
      show validP (if b < 12 then Pos.root else if b < 140 then Pos.ind
        else Pos.lvl1 ((b - 140) / 128)) = true
      by_cases h12 : b < 12
      · rw [if_pos h12]; rfl
      · rw [if_neg h12]
        by_cases h140 : b < 140
        · rw [if_pos h140]; rfl
        · rw [if_neg h140]
          simp only [validP, decide_eq_true_eq]
          omega

theorem parentPos_ne_self {p : Pos} (h : p ≠ Pos.root) : parentPos p ≠ p := by
  cases p with
  | root => exact absurd rfl h
  | ind => intro hc; cases hc
  | dbl => intro hc; cases hc
  | lvl1 i => intro hc; cases hc
  | dat b =>
      show (if b < 12 then Pos.root else if b < 140 then Pos.ind
        else Pos.lvl1 ((b - 140) / 128)) ≠ Pos.dat b
      by_cases h12 : b < 12
      · rw [if_pos h12]; intro hc; cases hc
      · rw [if_neg h12]
        by_cases h140 : b < 140
        · rw [if_pos h140]; intro hc; cases hc
        · rw [if_neg h140]; intro hc; cases hc

theorem parentPos_ne_dat (p : Pos) (b : Nat) : parentPos p ≠ Pos.dat b := by
  cases p with
  | root => intro hc; cases hc
  | ind => intro hc; cases hc
  | dbl => intro hc; cases hc
  | lvl1 i => intro hc; cases hc
  | dat b1 =>
      show (if b1 < 12 then Pos.root else if b1 < 140 then Pos.ind
        else Pos.lvl1 ((b1 - 140) / 128)) ≠ Pos.dat b
      by_cases h12 : b1 < 12
      · rw [if_pos h12]; intro hc; cases hc
      · rw [if_neg h12]
        by_cases h140 : b1 < 140
        · rw [if_pos h140]; intro hc; cases hc
        · rw [if_neg h140]; intro hc; cases hc

theorem pdepth_parent {p : Pos} (h : p ≠ Pos.root) :
    pdepth p = pdepth (parentPos p) + 1 := by
  cases p with
  | root => exact absurd rfl h
  | ind => rfl
  | dbl => rfl
  | lvl1 i => rfl
  | dat b =>
      show (if b < 12 then 1 else if b < 140 then 2 else 3) =
        pdepth (if b < 12 then Pos.root else if b < 140 then Pos.ind
          else Pos.lvl1 ((b - 140) / 128)) + 1
      by_cases h12 : b < 12
      · rw [if_pos h12, if_pos h12]; rfl
      · rw [if_neg h12, if_neg h12]
        by_cases h140 : b < 140
        · rw [if_pos h140, if_pos h140]; rfl
        · rw [if_neg h140, if_neg h140]; rfl

/-- Every non-root position's stored sector is the slot word at
(parent sector, slot offset), or 0 when the parent chain is broken. -/
theorem secAt_parent_eq (lay : Layout) (fs : FS) (isec : Nat) (hisec : 0 < isec)
    {p : Pos} (h : p ≠ Pos.root) :
    secAt lay fs isec p =
      if secAt lay fs isec (parentPos p) = 0 then 0
      else readW (fs.store (secAt lay fs isec (parentPos p))) (parentOff lay p) := by
  have hr : secAt lay fs isec Pos.root = isec := rfl
  cases p with
  | root => exact absurd rfl h
  | ind =>
      show readW (fs.store isec) lay.indOff = _
      rw [show parentPos Pos.ind = Pos.root from rfl, hr, if_neg (by omega)]
      rfl
  | dbl =>
      show readW (fs.store isec) lay.dblOff = _
      rw [show parentPos Pos.dbl = Pos.root from rfl, hr, if_neg (by omega)]
      rfl
  | lvl1 i =>
      show (if readW (fs.store isec) lay.dblOff = 0 then 0
            else readW (fs.store (readW (fs.store isec) lay.dblOff)) (4 * i)) = _
      rw [show parentPos (Pos.lvl1 i) = Pos.dbl from rfl]
      rfl
  | dat b =>
      show (if b < 12 then readW (fs.store isec) (lay.dirBase + 4 * b)
            else if b < 140 then
              (if readW (fs.store isec) lay.indOff = 0 then 0
               else readW (fs.store (readW (fs.store isec) lay.indOff)) (4 * (b - 12)))
            else
              (if readW (fs.store isec) lay.dblOff = 0 then 0
               else if readW (fs.store (readW (fs.store isec) lay.dblOff))
                   (4 * ((b - 140) / 128)) = 0 then 0
               else readW (fs.store (readW (fs.store (readW (fs.store isec) lay.dblOff))
                   (4 * ((b - 140) / 128)))) (4 * ((b - 140) % 128)))) =
        if secAt lay fs isec (if b < 12 then Pos.root else if b < 140 then Pos.ind
            else Pos.lvl1 ((b - 140) / 128)) = 0 then 0
        else readW (fs.store (secAt lay fs isec
            (if b < 12 then Pos.root else if b < 140 then Pos.ind
             else Pos.lvl1 ((b - 140) / 128))))
          (if b < 12 then lay.dirBase + 4 * b else if b < 140 then 4 * (b - 12)
           else 4 * ((b - 140) % 128))
      by_cases h12 : b < 12
      · rw [if_pos h12, if_pos h12, if_pos h12, hr, if_neg (by omega)]
      · rw [if_neg h12, if_neg h12, if_neg h12]
        by_cases h140 : b < 140
        · rw [if_pos h140, if_pos h140, if_pos h140]
          rfl
        · rw [if_neg h140, if_neg h140, if_neg h140]
          have hl : secAt lay fs isec (Pos.lvl1 ((b - 140) / 128)) =
              if readW (fs.store isec) lay.dblOff = 0 then 0
              else readW (fs.store (readW (fs.store isec) lay.dblOff))
                (4 * ((b - 140) / 128)) := rfl
          rw [hl]
          by_cases hd : readW (fs.store isec) lay.dblOff = 0
          · rw [if_pos hd, if_pos hd, if_pos rfl]
          · rw [if_neg hd, if_neg hd]

/-! ### Sibling slots occupy disjoint words -/

/-- Two 4-byte words at these offsets do not overlap. -/
def wordDisjoint (o o1 : Nat) : Prop := o + 4 ≤ o1 ∨ o1 + 4 ≤ o

/-- Distinct children of the same index node keep their slots in disjoint
4-byte words of the parent sector. -/
theorem sibling_disjoint {lay : Layout} (hlay : LayoutOK lay) {p q : Pos}
    (hp : validP p = true) (hq : validP q = true)
    (hpr : p ≠ Pos.root) (hqr : q ≠ Pos.root)
    (hpar : parentPos p = parentPos q) (hne : p ≠ q) :
    wordDisjoint (parentOff lay p) (parentOff lay q) := by
  have hd1 := hlay.dir_ge
  have hd2 := hlay.ind_eq
  have hd3 := hlay.dbl_eq
  unfold wordDisjoint
  have indOf : parentOff lay Pos.ind = lay.indOff := rfl
  have dblOf : parentOff lay Pos.dbl = lay.dblOff := rfl
  have lvlOf : ∀ i, parentOff lay (Pos.lvl1 i) = 4 * i := fun _ => rfl
  have indPar : parentPos Pos.ind = Pos.root := rfl
  have dblPar : parentPos Pos.dbl = Pos.root := rfl
  have lvlPar : ∀ i, parentPos (Pos.lvl1 i) = Pos.dbl := fun _ => rfl
  have datPar : ∀ b, parentPos (Pos.dat b) =
      (if b < 12 then Pos.root else if b < 140 then Pos.ind
       else Pos.lvl1 ((b - 140) / 128)) := fun _ => rfl
  have datOff : ∀ b, parentOff lay (Pos.dat b) =
      (if b < 12 then lay.dirBase + 4 * b else if b < 140 then 4 * (b - 12)
       else 4 * ((b - 140) % 128)) := fun _ => rfl
  cases p with
  | root => exact absurd rfl hpr
  | ind =>
      cases q with
      | root => exact absurd rfl hqr
      | ind => exact absurd rfl hne
      | dbl =>
          rw [indOf, dblOf]
          omega
      | lvl1 j =>
          rw [indPar, lvlPar j] at hpar
          simp at hpar
      | dat b =>
          rw [indPar, datPar b] at hpar
          rw [indOf, datOff b]
          by_cases h12 : b < 12
          · rw [if_pos h12]
            omega
          · rw [if_neg h12] at hpar
            by_cases h140 : b < 140
            · rw [if_pos h140] at hpar
              simp at hpar
            · rw [if_neg h140] at hpar
              simp at hpar
  | dbl =>
      cases q with
      | root => exact absurd rfl hqr
      | ind =>
          rw [indOf, dblOf]
          omega
      | dbl => exact absurd rfl hne
      | lvl1 j =>
          rw [dblPar, lvlPar j] at hpar
          simp at hpar
      | dat b =>
          rw [dblPar, datPar b] at hpar
          rw [dblOf, datOff b]
          by_cases h12 : b < 12
          · rw [if_pos h12]
            omega
          · rw [if_neg h12] at hpar
            by_cases h140 : b < 140
            · rw [if_pos h140] at hpar
              simp at hpar
            · rw [if_neg h140] at hpar
              simp at hpar
  | lvl1 i =>
      cases q with
      | root => exact absurd rfl hqr
      | ind =>
          rw [indPar, lvlPar i] at hpar
          simp at hpar
      | dbl =>
          rw [dblPar, lvlPar i] at hpar
          simp at hpar
      | lvl1 j =>
          have hij : i ≠ j := by
            intro he
            exact hne (by rw [he])
          rw [lvlOf i, lvlOf j]
          omega
      | dat b =>
          rw [lvlPar i, datPar b] at hpar
          by_cases h12 : b < 12
          · rw [if_pos h12] at hpar
            simp at hpar
          · rw [if_neg h12] at hpar
            by_cases h140 : b < 140
            · rw [if_pos h140] at hpar
              simp at hpar
            · rw [if_neg h140] at hpar
              simp at hpar
  | dat b =>
      rw [datPar b] at hpar
      rw [datOff b]
      cases q with
      | root => exact absurd rfl hqr
      | ind =>
          rw [indPar] at hpar
          rw [indOf]
          by_cases h12 : b < 12
          · rw [if_pos h12]
            omega
          · rw [if_neg h12] at hpar
            by_cases h140 : b < 140
            · rw [if_pos h140] at hpar
              simp at hpar
            · rw [if_neg h140] at hpar
              simp at hpar
      | dbl =>
          rw [dblPar] at hpar
          rw [dblOf]
          by_cases h12 : b < 12
          · rw [if_pos h12]
            omega
          · rw [if_neg h12] at hpar
            by_cases h140 : b < 140
            · rw [if_pos h140] at hpar
              simp at hpar
            · rw [if_neg h140] at hpar
              simp at hpar
      | lvl1 j =>
          rw [lvlPar j] at hpar
          by_cases h12 : b < 12
          · rw [if_pos h12] at hpar
            simp at hpar
          · rw [if_neg h12] at hpar
            by_cases h140 : b < 140
            · rw [if_pos h140] at hpar
              simp at hpar
            · rw [if_neg h140] at hpar
              simp at hpar
      | dat b1 =>
          rw [datPar b1] at hpar
          rw [datOff b1]
          have hbne : b ≠ b1 := by
            intro he
            exact hne (by rw [he])
          simp only [validP, decide_eq_true_eq] at hp hq
          by_cases h12 : b < 12
          · rw [if_pos h12] at hpar ⊢
            by_cases h12q : b1 < 12
            · rw [if_pos h12q]
              omega
            · rw [if_neg h12q] at hpar
              by_cases h140q : b1 < 140
              · rw [if_pos h140q] at hpar
                simp at hpar
              · rw [if_neg h140q] at hpar
                simp at hpar
          · rw [if_neg h12] at hpar ⊢
            by_cases h140 : b < 140
            · rw [if_pos h140] at hpar ⊢
              by_cases h12q : b1 < 12
              · rw [if_pos h12q] at hpar
                simp at hpar
              · rw [if_neg h12q] at hpar ⊢
                by_cases h140q : b1 < 140
                · rw [if_pos h140q]
                  omega
                · rw [if_neg h140q] at hpar
                  simp at hpar
            · rw [if_neg h140] at hpar ⊢
              by_cases h12q : b1 < 12
              · rw [if_pos h12q] at hpar
                simp at hpar
              · rw [if_neg h12q] at hpar ⊢
                by_cases h140q : b1 < 140
                · rw [if_pos h140q] at hpar
                  simp at hpar
                · rw [if_neg h140q] at hpar ⊢
                  have hdiv : (b - 140) / 128 = (b1 - 140) / 128 := Pos.lvl1.inj hpar
                  omega

/-! ### The allocation step of the walk -/

/-- The state after the alloc branch of one `MODIFY_CACHE` step: the slot at
(sector `t`, byte offset `off`) now stores `s`, sector `s` is zero-filled,
and `s` is marked allocated. -/
def allocUpd (fs : FS) (t off s : Nat) : FS :=
  { store := updFn (updFn fs.store t (writeW (fs.store t) off s)) s (fun _ => 0),
    fm := updFn fs.fm s true,
    cap := fs.cap }

theorem modifyCache_nonzero {fs : FS} {t off : Nat}
    (h : readW (fs.store t) off ≠ 0) :
    modifyCache fs t off = some (readW (fs.store t) off, fs) := by
  unfold modifyCache
  rw [if_neg h]

theorem modifyCache_zero_some {fs : FS} {t off s : Nat}
    (h : readW (fs.store t) off = 0) (hs : freeAlloc fs.fm fs.cap = some s) :
    modifyCache fs t off = some (s, allocUpd fs t off s) := by
  unfold modifyCache allocUpd
  rw [if_pos h, hs]

theorem modifyCache_zero_none {fs : FS} {t off : Nat}
    (h : readW (fs.store t) off = 0) (hs : freeAlloc fs.fm fs.cap = none) :
    modifyCache fs t off = none := by
  unfold modifyCache
  rw [if_pos h, hs]

theorem freeAlloc_spec {fm : Nat → Bool} {cap s : Nat}
    (h : freeAlloc fm cap = some s) : fm s = false ∧ s < cap := by
  unfold freeAlloc at h
  constructor
  · have hp := List.find?_some h
    simpa using hp
  · have hm := List.mem_of_find?_eq_some h
    simpa using hm

/-- The heart of the walk verification: allocating a fresh sector `s` into
the zero slot of position `p` sets `secAt p` to `s` and leaves `secAt` of
every other valid position unchanged.  Proved by strong induction on the
depth of the observed position, using injectivity of the stored tree and
disjointness of sibling slots. -/
theorem alloc_step {lay : Layout} (hlay : LayoutOK lay) {fs : FS} {isec : Nat}
    (hwf : WF lay fs isec) {p : Pos} (hp : validP p = true) (hpr : p ≠ Pos.root)
    (hps : secAt lay fs isec (parentPos p) ≠ 0)
    (hzero : secAt lay fs isec p = 0)
    {s : Nat} (hfm : fs.fm s = false) (hcap : s < fs.cap) :
    secAt lay (allocUpd fs (secAt lay fs isec (parentPos p)) (parentOff lay p) s) isec p = s ∧
    ∀ q, validP q = true → q ≠ p →
      secAt lay (allocUpd fs (secAt lay fs isec (parentPos p)) (parentOff lay p) s) isec q =
        secAt lay fs isec q := by
  have hroot : secAt lay fs isec Pos.root = isec := rfl
  have hisec0 : isec ≠ 0 := by
    have := hwf.isec_pos
    omega
  have hfmisec : fs.fm isec = true := by
    have := (hwf.good Pos.root rfl (by rw [hroot]; exact hisec0)).2
    rw [hroot] at this
    exact this
  have hs0 : s ≠ 0 := by
    intro he
    rw [he] at hfm
    rw [hwf.fm_zero] at hfm
    cases hfm
  have hsisec : s ≠ isec := by
    intro he
    rw [he] at hfm
    rw [hfmisec] at hfm
    cases hfm
  have hfmt : fs.fm (secAt lay fs isec (parentPos p)) = true :=
    (hwf.good (parentPos p) (validP_parent hp) hps).2
  have hts : secAt lay fs isec (parentPos p) ≠ s := by
    intro he
    rw [he] at hfmt
    rw [hfmt] at hfm
    cases hfm
  set t := secAt lay fs isec (parentPos p) with htdef
  set fs1 := allocUpd fs t (parentOff lay p) s with hfs1
  have hstore_t : fs1.store t = writeW (fs.store t) (parentOff lay p) s := by
    show updFn (updFn fs.store t (writeW (fs.store t) (parentOff lay p) s)) s
      (fun _ => 0) t = _
    rw [updFn_other _ _ _ hts, updFn_same]
  have hstore_s : fs1.store s = (fun _ => 0) := by
    show updFn (updFn fs.store t (writeW (fs.store t) (parentOff lay p) s)) s
      (fun _ => 0) s = _
    rw [updFn_same]
  have hstore_other : ∀ r, r ≠ t → r ≠ s → fs1.store r = fs.store r := by
    intro r hrt hrs
    show updFn (updFn fs.store t (writeW (fs.store t) (parentOff lay p) s)) s
      (fun _ => 0) r = _
    rw [updFn_other _ _ _ hrs, updFn_other _ _ _ hrt]
  have main : ∀ n q, pdepth q ≤ n → validP q = true →
      (q = p → secAt lay fs1 isec q = s) ∧
      (q ≠ p → secAt lay fs1 isec q = secAt lay fs isec q) := by
    intro n
    induction n with
    | zero =>
        intro q hd hq
        have hq0 : q = Pos.root := by
          cases q with
          | root => rfl
          | ind => exact absurd hd (by simp [pdepth])
          | dbl => exact absurd hd (by simp [pdepth])
          | lvl1 i => exact absurd hd (by simp [pdepth])
          | dat b =>
              exfalso
              have : pdepth (Pos.dat b) =
                  if b < 12 then 1 else if b < 140 then 2 else 3 := rfl
              rw [this] at hd
              by_cases h12 : b < 12
              · rw [if_pos h12] at hd
                omega
              · rw [if_neg h12] at hd
                by_cases h140 : b < 140
                · rw [if_pos h140] at hd
                  omega
                · rw [if_neg h140] at hd
                  omega
        subst hq0
        constructor
        · intro he
          exact absurd he.symm hpr
        · intro _
          rfl
    | succ n ih =>
        intro q hd hq
        by_cases hq0 : q = Pos.root
        · subst hq0
          constructor
          · intro he
            exact absurd he.symm hpr
          · intro _
            rfl
        · have hdq : pdepth (parentPos q) ≤ n := by
            rw [pdepth_parent hq0] at hd
            omega
          have hqv : validP (parentPos q) = true := validP_parent hq
          have hπ := ih (parentPos q) hdq hqv
          constructor
          · intro he
            subst he
            have hππ : secAt lay fs1 isec (parentPos q) = t :=
              hπ.2 (parentPos_ne_self hq0)
            rw [secAt_parent_eq lay fs1 isec hwf.isec_pos hq0, hππ, if_neg hps,
              hstore_t, readW_writeW_self _ _ _ (by
                have := hwf.cap_le
                omega)]
          · intro hne
            by_cases hqp : parentPos q = p
            · have hπs : secAt lay fs1 isec (parentPos q) = s := hπ.1 hqp
              have hq0fs : secAt lay fs isec q = 0 := by
                rw [secAt_parent_eq lay fs isec hwf.isec_pos hq0, hqp, hzero,
                  if_pos rfl]
              rw [secAt_parent_eq lay fs1 isec hwf.isec_pos hq0, hπs,
                if_neg hs0, hstore_s, readW_zero, hq0fs]
            · have hπe : secAt lay fs1 isec (parentPos q) =
                  secAt lay fs isec (parentPos q) := hπ.2 hqp
              rw [secAt_parent_eq lay fs1 isec hwf.isec_pos hq0,
                secAt_parent_eq lay fs isec hwf.isec_pos hq0, hπe]
              by_cases hP : secAt lay fs isec (parentPos q) = 0
              · rw [if_pos hP, if_pos hP]
              · rw [if_neg hP, if_neg hP]
                have hPfm : fs.fm (secAt lay fs isec (parentPos q)) = true :=
                  (hwf.good _ hqv hP).2
                have hPs : secAt lay fs isec (parentPos q) ≠ s := by
                  intro heq
                  rw [heq] at hPfm
                  rw [hPfm] at hfm
                  cases hfm
                by_cases hPt : secAt lay fs isec (parentPos q) = t
                · have hsame : parentPos q = parentPos p :=
                    hwf.inj _ _ hqv (validP_parent hp) hP hps hPt
                  have hdisj := sibling_disjoint hlay hp hq hpr hq0
                    hsame.symm (fun he => hne he.symm)
                  rw [hPt, hstore_t,
                    readW_writeW_disjoint _ _ _ _ (by
                      unfold wordDisjoint at hdisj
                      omega)]
                · rw [hstore_other _ hPt hPs]
  exact ⟨(main (pdepth p) p le_rfl hp).1 rfl,
    fun q hqv hne => (main (pdepth q) q le_rfl hqv).2 hne⟩

/-! ### Frame conditions carried through each walk step -/

theorem allocUpd_store_at_t {fs : FS} {t off s : Nat} (h : t ≠ s) :
    (allocUpd fs t off s).store t = writeW (fs.store t) off s := by
  show updFn (updFn fs.store t (writeW (fs.store t) off s)) s (fun _ => 0) t = _
  rw [updFn_other _ _ _ h, updFn_same]

theorem allocUpd_store_at_s (fs : FS) (t off s : Nat) :
    (allocUpd fs t off s).store s = fun _ => 0 := by
  show updFn (updFn fs.store t (writeW (fs.store t) off s)) s (fun _ => 0) s = _
  rw [updFn_same]

theorem allocUpd_store_other {fs : FS} {t off s r : Nat} (hrt : r ≠ t)
    (hrs : r ≠ s) : (allocUpd fs t off s).store r = fs.store r := by
  show updFn (updFn fs.store t (writeW (fs.store t) off s)) s (fun _ => 0) r = _
  rw [updFn_other _ _ _ hrs, updFn_other _ _ _ hrt]

theorem allocUpd_fm_mono {fs : FS} (t off s : Nat) {r : Nat}
    (h : fs.fm r = true) : (allocUpd fs t off s).fm r = true := by
  show updFn fs.fm s true r = true
  by_cases hrs : r = s
  · rw [hrs, updFn_same]
  · rw [updFn_other _ _ _ hrs]
    exact h

/-- A child of the inode sector itself keeps its slot at byte offset at
least 4, so the length word at offset 0 is never overwritten by the walk. -/
theorem root_child_off {lay : Layout} (hlay : LayoutOK lay) {p : Pos}
    (hpr : p ≠ Pos.root) (hpp : parentPos p = Pos.root) :
    4 ≤ parentOff lay p := by
  have hd1 := hlay.dir_ge
  have hd2 := hlay.ind_eq
  have hd3 := hlay.dbl_eq
  cases p with
  | root => exact absurd rfl hpr
  | ind =>
      show 4 ≤ lay.indOff
      omega
  | dbl =>
      show 4 ≤ lay.dblOff
      omega
  | lvl1 i =>
      rw [show parentPos (Pos.lvl1 i) = Pos.dbl from rfl] at hpp
      simp at hpp
  | dat b =>
      rw [show parentPos (Pos.dat b) =
        (if b < 12 then Pos.root else if b < 140 then Pos.ind
         else Pos.lvl1 ((b - 140) / 128)) from rfl] at hpp
      show 4 ≤ (if b < 12 then lay.dirBase + 4 * b else if b < 140 then 4 * (b - 12)
        else 4 * ((b - 140) % 128))
      by_cases h12 : b < 12
      · rw [if_pos h12]
        omega
      · rw [if_neg h12] at hpp
        by_cases h140 : b < 140
        · rw [if_pos h140] at hpp
          simp at hpp
        · rw [if_neg h140] at hpp
          simp at hpp

/-- The frame a single walk step (and hence any walk prefix) preserves:
well-formedness, every already-materialised tree slot, the length word, the
capacity, allocated-ness, and the contents of every materialised data
sector. -/
structure Frame (lay : Layout) (isec : Nat) (fs fs1 : FS) : Prop where
  wf : WF lay fs1 isec
  pres : ∀ q, validP q = true → secAt lay fs isec q ≠ 0 →
      secAt lay fs1 isec q = secAt lay fs isec q
  len : readW (fs1.store isec) 0 = readW (fs.store isec) 0
  cap_eq : fs1.cap = fs.cap
  fm_mono : ∀ r, fs.fm r = true → fs1.fm r = true
  dstore : ∀ b, validP (Pos.dat b) = true → secAt lay fs isec (Pos.dat b) ≠ 0 →
      fs1.store (secAt lay fs isec (Pos.dat b)) =
        fs.store (secAt lay fs isec (Pos.dat b))

theorem Frame.refl {lay : Layout} {isec : Nat} {fs : FS} (hwf : WF lay fs isec) :
    Frame lay isec fs fs :=
  ⟨hwf, fun _ _ _ => rfl, rfl, rfl, fun _ h => h, fun _ _ _ => rfl⟩

theorem Frame.trans {lay : Layout} {isec : Nat} {fs fs1 fs2 : FS}
    (h1 : Frame lay isec fs fs1) (h2 : Frame lay isec fs1 fs2) :
    Frame lay isec fs fs2 := by
  refine ⟨h2.wf, ?_, h2.len.trans h1.len, h2.cap_eq.trans h1.cap_eq,
    fun r hr => h2.fm_mono r (h1.fm_mono r hr), ?_⟩
  · intro q hqv hnz
    have e1 := h1.pres q hqv hnz
    have e2 := h2.pres q hqv (by rw [e1]; exact hnz)
    rw [e2, e1]
  · intro b hbv hnz
    have e1 := h1.pres (Pos.dat b) hbv hnz
    have d1 := h1.dstore b hbv hnz
    have d2 := h2.dstore b hbv (by rw [e1]; exact hnz)
    rw [e1] at d2
    rw [d2, d1]

/-- Full postcondition of the allocation branch of one walk step. -/
theorem alloc_post {lay : Layout} (hlay : LayoutOK lay) {fs : FS} {isec : Nat}
    (hwf : WF lay fs isec) {p : Pos} (hp : validP p = true) (hpr : p ≠ Pos.root)
    (hps : secAt lay fs isec (parentPos p) ≠ 0)
    (hzero : secAt lay fs isec p = 0)
    {s : Nat} (hfm : fs.fm s = false) (hcap : s < fs.cap) :
    Frame lay isec fs
      (allocUpd fs (secAt lay fs isec (parentPos p)) (parentOff lay p) s) ∧
    secAt lay (allocUpd fs (secAt lay fs isec (parentPos p)) (parentOff lay p) s)
      isec p = s := by
  obtain ⟨hat, hpres⟩ := alloc_step hlay hwf hp hpr hps hzero hfm hcap
  have hroot : secAt lay fs isec Pos.root = isec := rfl
  have hisec0 : isec ≠ 0 := by
    have := hwf.isec_pos
    omega
  have hfmisec : fs.fm isec = true := by
    have := (hwf.good Pos.root rfl (by rw [hroot]; exact hisec0)).2
    rw [hroot] at this
    exact this
  have hs0 : s ≠ 0 := by
    intro he
    rw [he, hwf.fm_zero] at hfm
    cases hfm
  have hsisec : s ≠ isec := by
    intro he
    rw [he, hfmisec] at hfm
    cases hfm
  have hfmt : fs.fm (secAt lay fs isec (parentPos p)) = true :=
    (hwf.good (parentPos p) (validP_parent hp) hps).2
  have hts : secAt lay fs isec (parentPos p) ≠ s := by
    intro he
    rw [he, hfm] at hfmt
    cases hfmt
  set t := secAt lay fs isec (parentPos p) with htdef
  set fs1 := allocUpd fs t (parentOff lay p) s with hfs1
  have hlen : readW (fs1.store isec) 0 = readW (fs.store isec) 0 := by
    by_cases hti : t = isec
    · have hpp : parentPos p = Pos.root := by
        refine hwf.inj _ _ (validP_parent hp) rfl hps ?_ ?_
        · rw [hroot]; exact hisec0
        · rw [hroot]; exact hti
      have hoff := root_child_off hlay hpr hpp
      have : fs1.store isec = writeW (fs.store isec) (parentOff lay p) s := by
        rw [← hti]
        exact allocUpd_store_at_t hts
      rw [this, readW_writeW_disjoint _ _ _ _ (by omega)]
    · rw [allocUpd_store_other (fun he => hti he.symm) (fun he => hsisec he.symm)]
  have hgood : ∀ q, validP q = true → secAt lay fs1 isec q ≠ 0 →
      secAt lay fs1 isec q < fs1.cap ∧ fs1.fm (secAt lay fs1 isec q) = true := by
    intro q hqv hnz
    by_cases hqp : q = p
    · subst hqp
      rw [hat]
      refine ⟨hcap, ?_⟩
      show updFn fs.fm s true s = true
      rw [updFn_same]
    · rw [hpres q hqv hqp] at hnz ⊢
      obtain ⟨h1, h2⟩ := hwf.good q hqv hnz
      exact ⟨h1, allocUpd_fm_mono _ _ _ h2⟩
  have hinj : ∀ q r, validP q = true → validP r = true →
      secAt lay fs1 isec q ≠ 0 → secAt lay fs1 isec r ≠ 0 →
      secAt lay fs1 isec q = secAt lay fs1 isec r → q = r := by
    intro q r hqv hrv hnzq hnzr heq
    by_cases hqp : q = p
    · by_cases hrp : r = p
      · rw [hqp, hrp]
      · subst hqp
        rw [hat, hpres r hrv hrp] at heq
        have : fs.fm (secAt lay fs isec r) = true :=
          (hwf.good r hrv (by rw [← hpres r hrv hrp]; exact hnzr)).2
        rw [← heq, hfm] at this
        cases this
    · by_cases hrp : r = p
      · subst hrp
        rw [hat, hpres q hqv hqp] at heq
        have : fs.fm (secAt lay fs isec q) = true :=
          (hwf.good q hqv (by rw [← hpres q hqv hqp]; exact hnzq)).2
        rw [heq, hfm] at this
        cases this
      · rw [hpres q hqv hqp, hpres r hrv hrp] at heq
        exact hwf.inj q r hqv hrv
          (by rw [← hpres q hqv hqp]; exact hnzq)
          (by rw [← hpres r hrv hrp]; exact hnzr) heq
  have hwf1 : WF lay fs1 isec := by
    refine ⟨hwf.isec_pos, ?_, ?_, ?_, hgood, hinj⟩
    · show updFn fs.fm s true 0 = true
      rw [updFn_other _ _ _ (fun he => hs0 he.symm)]
      exact hwf.fm_zero
    · show fs.cap ≤ 4294967296
      exact hwf.cap_le
    · rw [hlen]
      exact hwf.len_le
  refine ⟨⟨hwf1, ?_, hlen, rfl, fun r hr => allocUpd_fm_mono _ _ _ hr, ?_⟩, hat⟩
  · intro q hqv hnz
    refine hpres q hqv ?_
    intro he
    rw [he, hzero] at hnz
    exact hnz rfl
  · intro b hbv hnz
    have hd : fs.fm (secAt lay fs isec (Pos.dat b)) = true :=
      (hwf.good _ hbv hnz).2
    refine allocUpd_store_other ?_ ?_
    · intro he
      have : Pos.dat b = parentPos p :=
        hwf.inj _ _ hbv (validP_parent hp) hnz hps he
      exact parentPos_ne_dat p b this.symm
    · intro he
      rw [he, hfm] at hd
      cases hd

/-- One `MODIFY_CACHE` step at the slot of position `p`: either the
`ASSERT (success)` panic, or it returns a non-zero sector that the index now
stores for `p`, preserving the walk frame. -/
theorem mc_step {lay : Layout} (hlay : LayoutOK lay) {fs : FS} {isec : Nat}
    (hwf : WF lay fs isec) {p : Pos} (hp : validP p = true)
    (hpr : p ≠ Pos.root) (hps : secAt lay fs isec (parentPos p) ≠ 0) :
    modifyCache fs (secAt lay fs isec (parentPos p)) (parentOff lay p) = none ∨
    ∃ sv fs1,
      modifyCache fs (secAt lay fs isec (parentPos p)) (parentOff lay p) =
        some (sv, fs1) ∧
      Frame lay isec fs fs1 ∧ secAt lay fs1 isec p = sv ∧ sv ≠ 0 := by
  have heq := secAt_parent_eq lay fs isec hwf.isec_pos hpr
  rw [if_neg hps] at heq
  by_cases hz : secAt lay fs isec p = 0
  · have hr0 : readW (fs.store (secAt lay fs isec (parentPos p)))
        (parentOff lay p) = 0 := by
      rw [← heq]
      exact hz
    cases hsa : freeAlloc fs.fm fs.cap with
    | none =>
        left
        exact modifyCache_zero_none hr0 hsa
    | some s =>
        right
        obtain ⟨hfm, hcap⟩ := freeAlloc_spec hsa
        obtain ⟨hfr, hat⟩ := alloc_post hlay hwf hp hpr hps hz hfm hcap
        have hs0 : s ≠ 0 := by
          intro he
          rw [he, hwf.fm_zero] at hfm
          cases hfm
        exact ⟨s, _, modifyCache_zero_some hr0 hsa, hfr, hat, hs0⟩
  · right
    have hrne : readW (fs.store (secAt lay fs isec (parentPos p)))
        (parentOff lay p) ≠ 0 := by
      rw [← heq]
      exact hz
    refine ⟨secAt lay fs isec p, fs, ?_, Frame.refl hwf, rfl, hz⟩
    rw [modifyCache_nonzero hrne, ← heq]

/-- Specification of a full `byte_to_sector` walk below the stored length:
either the `ASSERT` panic on free-map exhaustion, or it returns the non-zero
sector that the index tree now stores for data block `pos / 512`, preserving
the walk frame. -/
theorem walk_spec {lay : Layout} (hlay : LayoutOK lay) {fs : FS} {isec pos : Nat}
    (hwf : WF lay fs isec) (hpos : pos < readW (fs.store isec) 0)
    (hmax : pos < MAXB) :
    byte_to_sector lay fs isec pos = none ∨
    ∃ fs1, byte_to_sector lay fs isec pos =
        some (some (secAt lay fs1 isec (Pos.dat (pos / 512))), fs1) ∧
      Frame lay isec fs fs1 ∧ secAt lay fs1 isec (Pos.dat (pos / 512)) ≠ 0 := by
  have hisec0 : isec ≠ 0 := by
    have := hwf.isec_pos
    omega
  have hnum : pos / 512 < 16524 := by
    unfold MAXB at hmax
    omega
  have hpv : validP (Pos.dat (pos / 512)) = true := by
    simp only [validP, decide_eq_true_eq]
    exact hnum
  have hner : Pos.dat (pos / 512) ≠ Pos.root := by
    intro hc
    cases hc
  have hdatPar : parentPos (Pos.dat (pos / 512)) =
      (if pos / 512 < 12 then Pos.root else if pos / 512 < 140 then Pos.ind
       else Pos.lvl1 ((pos / 512 - 140) / 128)) := rfl
  have hdatOff : parentOff lay (Pos.dat (pos / 512)) =
      (if pos / 512 < 12 then lay.dirBase + 4 * (pos / 512)
       else if pos / 512 < 140 then 4 * (pos / 512 - 12)
       else 4 * ((pos / 512 - 140) % 128)) := rfl
  by_cases h12 : pos / 512 < 12
  · have hred : byte_to_sector lay fs isec pos =
        match modifyCache fs isec (lay.dirBase + 4 * (pos / 512)) with
        | none => none
        | some (s, fs1) => some (some s, fs1) := by
      unfold byte_to_sector
      rw [if_pos hpos, if_pos h12]
    have hppar : secAt lay fs isec (parentPos (Pos.dat (pos / 512))) = isec := by
      rw [hdatPar, if_pos h12]
      rfl
    have hoff : parentOff lay (Pos.dat (pos / 512)) =
        lay.dirBase + 4 * (pos / 512) := by
      rw [hdatOff, if_pos h12]
    have hps : secAt lay fs isec (parentPos (Pos.dat (pos / 512))) ≠ 0 := by
      rw [hppar]
      exact hisec0
    rcases mc_step hlay hwf hpv hner hps with hmc | ⟨sv, fs1, hmc, hfr, hat, hsv⟩
    · left
      rw [hppar, hoff] at hmc
      rw [hred, hmc]
    · right
      rw [hppar, hoff] at hmc
      refine ⟨fs1, ?_, hfr, by rw [hat]; exact hsv⟩
      rw [hred, hmc, hat]
  · by_cases h140 : pos / 512 < 140
    · have hred : byte_to_sector lay fs isec pos =
          match modifyCache fs isec lay.indOff with
          | none => none
          | some (s1, fs1) =>
            match modifyCache fs1 s1 (4 * (pos / 512 - 12)) with
            | none => none
            | some (s2, fs2) => some (some s2, fs2) := by
        unfold byte_to_sector
        rw [if_pos hpos, if_neg h12, if_pos h140]
      have hps1 : secAt lay fs isec (parentPos Pos.ind) ≠ 0 := hisec0
      rcases mc_step hlay hwf (show validP Pos.ind = true from rfl)
          (by intro hc; cases hc) hps1 with hmc1 | ⟨s1, fs1, hmc1, hfr1, hat1, hs1⟩
      · left
        rw [show secAt lay fs isec (parentPos Pos.ind) = isec from rfl,
          show parentOff lay Pos.ind = lay.indOff from rfl] at hmc1
        rw [hred, hmc1]
      · rw [show secAt lay fs isec (parentPos Pos.ind) = isec from rfl,
          show parentOff lay Pos.ind = lay.indOff from rfl] at hmc1
        have hred2 : byte_to_sector lay fs isec pos =
            match modifyCache fs1 s1 (4 * (pos / 512 - 12)) with
            | none => none
            | some (s2, fs2) => some (some s2, fs2) := by
          rw [hred, hmc1]
        have hppar2 : secAt lay fs1 isec (parentPos (Pos.dat (pos / 512))) = s1 := by
          rw [hdatPar, if_neg h12, if_pos h140]
          exact hat1
        have hoff2 : parentOff lay (Pos.dat (pos / 512)) = 4 * (pos / 512 - 12) := by
          rw [hdatOff, if_neg h12, if_pos h140]
        have hps2 : secAt lay fs1 isec (parentPos (Pos.dat (pos / 512))) ≠ 0 := by
          rw [hppar2]
          exact hs1
        rcases mc_step hlay hfr1.wf hpv hner hps2 with hmc2 | ⟨s2, fs2, hmc2, hfr2, hat2, hs2⟩
        · left
          rw [hppar2, hoff2] at hmc2
          rw [hred2, hmc2]
        · right
          rw [hppar2, hoff2] at hmc2
          refine ⟨fs2, ?_, Frame.trans hfr1 hfr2, by rw [hat2]; exact hs2⟩
          rw [hred2, hmc2, hat2]
    · have hred : byte_to_sector lay fs isec pos =
          match modifyCache fs isec lay.dblOff with
          | none => none
          | some (s1, fs1) =>
            match modifyCache fs1 s1 (4 * ((pos / 512 - 140) / 128)) with
            | none => none
            | some (s2, fs2) =>
              match modifyCache fs2 s2 (4 * ((pos / 512 - 140) % 128)) with
              | none => none
              | some (s3, fs3) => some (some s3, fs3) := by
        unfold byte_to_sector
        rw [if_pos hpos, if_neg h12, if_neg h140]
      have hlv : validP (Pos.lvl1 ((pos / 512 - 140) / 128)) = true := by
        simp only [validP, decide_eq_true_eq]
        omega
      have hps1 : secAt lay fs isec (parentPos Pos.dbl) ≠ 0 := hisec0
      rcases mc_step hlay hwf (show validP Pos.dbl = true from rfl)
          (by intro hc; cases hc) hps1 with hmc1 | ⟨s1, fs1, hmc1, hfr1, hat1, hs1⟩
      · left
        rw [show secAt lay fs isec (parentPos Pos.dbl) = isec from rfl,
          show parentOff lay Pos.dbl = lay.dblOff from rfl] at hmc1
        rw [hred, hmc1]
      · rw [show secAt lay fs isec (parentPos Pos.dbl) = isec from rfl,
          show parentOff lay Pos.dbl = lay.dblOff from rfl] at hmc1
        have hred2 : byte_to_sector lay fs isec pos =
            match modifyCache fs1 s1 (4 * ((pos / 512 - 140) / 128)) with
            | none => none
            | some (s2, fs2) =>
              match modifyCache fs2 s2 (4 * ((pos / 512 - 140) % 128)) with
              | none => none
              | some (s3, fs3) => some (some s3, fs3) := by
          rw [hred, hmc1]
        have hppar2 : secAt lay fs1 isec
            (parentPos (Pos.lvl1 ((pos / 512 - 140) / 128))) = s1 := hat1
        have hps2 : secAt lay fs1 isec
            (parentPos (Pos.lvl1 ((pos / 512 - 140) / 128))) ≠ 0 := by
          rw [hppar2]
          exact hs1
        rcases mc_step hlay hfr1.wf hlv (by intro hc; cases hc) hps2 with
          hmc2 | ⟨s2, fs2, hmc2, hfr2, hat2, hs2⟩
        · left
          rw [hppar2, show parentOff lay (Pos.lvl1 ((pos / 512 - 140) / 128)) =
            4 * ((pos / 512 - 140) / 128) from rfl] at hmc2
          rw [hred2, hmc2]
        · rw [hppar2, show parentOff lay (Pos.lvl1 ((pos / 512 - 140) / 128)) =
            4 * ((pos / 512 - 140) / 128) from rfl] at hmc2
          have hred3 : byte_to_sector lay fs isec pos =
              match modifyCache fs2 s2 (4 * ((pos / 512 - 140) % 128)) with
              | none => none
              | some (s3, fs3) => some (some s3, fs3) := by
            rw [hred2, hmc2]
          have hppar3 : secAt lay fs2 isec (parentPos (Pos.dat (pos / 512))) = s2 := by
            rw [hdatPar, if_neg h12, if_neg h140]
            exact hat2
          have hoff3 : parentOff lay (Pos.dat (pos / 512)) =
              4 * ((pos / 512 - 140) % 128) := by
            rw [hdatOff, if_neg h12, if_neg h140]
          have hps3 : secAt lay fs2 isec (parentPos (Pos.dat (pos / 512))) ≠ 0 := by
            rw [hppar3]
            exact hs2
          rcases mc_step hlay hfr2.wf hpv hner hps3 with
            hmc3 | ⟨s3, fs3, hmc3, hfr3, hat3, hs3⟩
          · left
            rw [hppar3, hoff3] at hmc3
            rw [hred3, hmc3]
          · right
            rw [hppar3, hoff3] at hmc3
            refine ⟨fs3, ?_, Frame.trans (Frame.trans hfr1 hfr2) hfr3,
              by rw [hat3]; exact hs3⟩
            rw [hred3, hmc3, hat3]

/-- When the data block for `pos` is already materialised in the index, the
walk allocates nothing and changes nothing: every slot on the chain is
non-zero, so each `MODIFY_CACHE` takes its read-only branch. -/
theorem walk_pure {lay : Layout} {fs : FS} {isec pos : Nat}
    (hpos : pos < readW (fs.store isec) 0)
    (hnz : secAt lay fs isec (Pos.dat (pos / 512)) ≠ 0) :
    byte_to_sector lay fs isec pos =
      some (some (secAt lay fs isec (Pos.dat (pos / 512))), fs) := by
  have hdat : secAt lay fs isec (Pos.dat (pos / 512)) =
      (if pos / 512 < 12 then readW (fs.store isec) (lay.dirBase + 4 * (pos / 512))
       else if pos / 512 < 140 then
         (if readW (fs.store isec) lay.indOff = 0 then 0
          else readW (fs.store (readW (fs.store isec) lay.indOff))
            (4 * (pos / 512 - 12)))
       else
         (if readW (fs.store isec) lay.dblOff = 0 then 0
          else if readW (fs.store (readW (fs.store isec) lay.dblOff))
              (4 * ((pos / 512 - 140) / 128)) = 0 then 0
          else readW (fs.store (readW (fs.store (readW (fs.store isec) lay.dblOff))
              (4 * ((pos / 512 - 140) / 128)))) (4 * ((pos / 512 - 140) % 128)))) := rfl
  by_cases h12 : pos / 512 < 12
  · rw [hdat, if_pos h12] at hnz ⊢
    unfold byte_to_sector
    rw [if_pos hpos, if_pos h12, modifyCache_nonzero hnz]
  · by_cases h140 : pos / 512 < 140
    · rw [hdat, if_neg h12, if_pos h140] at hnz ⊢
      have hI : readW (fs.store isec) lay.indOff ≠ 0 := by
        intro he
        rw [if_pos he] at hnz
        exact hnz rfl
      rw [if_neg hI] at hnz ⊢
      unfold byte_to_sector
      rw [if_pos hpos, if_neg h12, if_pos h140, modifyCache_nonzero hI]
      show (match modifyCache fs (readW (fs.store isec) lay.indOff)
          (4 * (pos / 512 - 12)) with
        | none => none
        | some (s2, fs2) => some (some s2, fs2)) = _
      rw [modifyCache_nonzero hnz]
    · rw [hdat, if_neg h12, if_neg h140] at hnz ⊢
      have hD : readW (fs.store isec) lay.dblOff ≠ 0 := by
        intro he
        rw [if_pos he] at hnz
        exact hnz rfl
      rw [if_neg hD] at hnz ⊢
      have hL : readW (fs.store (readW (fs.store isec) lay.dblOff))
          (4 * ((pos / 512 - 140) / 128)) ≠ 0 := by
        intro he
        rw [if_pos he] at hnz
        exact hnz rfl
      rw [if_neg hL] at hnz ⊢
      unfold byte_to_sector
      rw [if_pos hpos, if_neg h12, if_neg h140, modifyCache_nonzero hD]
      show (match modifyCache fs (readW (fs.store isec) lay.dblOff)
          (4 * ((pos / 512 - 140) / 128)) with
        | none => none
        | some (s2, fs2) =>
          match modifyCache fs2 s2 (4 * ((pos / 512 - 140) % 128)) with
          | none => none
          | some (s3, fs3) => some (some s3, fs3)) = _
      rw [modifyCache_nonzero hL]
      show (match modifyCache fs
          (readW (fs.store (readW (fs.store isec) lay.dblOff))
            (4 * ((pos / 512 - 140) / 128)))
          (4 * ((pos / 512 - 140) % 128)) with
        | none => none
        | some (s3, fs3) => some (some s3, fs3)) = _
      rw [modifyCache_nonzero hnz]

/-! ### Loop step equations and the data-sector update -/

theorem readLoop_succ {lay : Layout} {isec : Nat} {fuel size offset : Nat}
    {fs fsx : FS} {so : Option Nat} (hs : size ≠ 0)
    (hw : byte_to_sector lay fs isec offset = some (so, fsx)) :
    readLoop lay isec (fuel + 1) fs size offset =
      (if min size (min (readW (fsx.store isec) 0 - offset) (512 - offset % 512)) = 0
       then some ([], fsx)
       else
        match readLoop lay isec fuel fsx
            (size - min size (min (readW (fsx.store isec) 0 - offset) (512 - offset % 512)))
            (offset + min size (min (readW (fsx.store isec) 0 - offset) (512 - offset % 512))) with
        | none => none
        | some (rest, fs2) =>
          some ((List.range (min size (min (readW (fsx.store isec) 0 - offset)
              (512 - offset % 512)))).map
              (fun i => fsx.store (so.getD 4294967295) (offset % 512 + i)) ++ rest, fs2)) := by
  show (if size = 0 then some ([], fs)
    else match byte_to_sector lay fs isec offset with
      | none => none
      | some (so, fs1) =>
        if min size (min (readW (fs1.store isec) 0 - offset) (512 - offset % 512)) = 0
        then some ([], fs1)
        else
          match readLoop lay isec fuel fs1
              (size - min size (min (readW (fs1.store isec) 0 - offset) (512 - offset % 512)))
              (offset + min size (min (readW (fs1.store isec) 0 - offset) (512 - offset % 512))) with
          | none => none
          | some (rest, fs2) =>
            some ((List.range (min size (min (readW (fs1.store isec) 0 - offset)
                (512 - offset % 512)))).map
                (fun i => fs1.store (so.getD 4294967295) (offset % 512 + i)) ++ rest, fs2)) = _
  rw [if_neg hs, hw]

theorem readLoop_succ_none {lay : Layout} {isec : Nat} {fuel size offset : Nat}
    {fs : FS} (hs : size ≠ 0)
    (hw : byte_to_sector lay fs isec offset = none) :
    readLoop lay isec (fuel + 1) fs size offset = none := by
  show (if size = 0 then some ([], fs)
    else match byte_to_sector lay fs isec offset with
      | none => none
      | some (so, fs1) =>
        if min size (min (readW (fs1.store isec) 0 - offset) (512 - offset % 512)) = 0
        then some ([], fs1)
        else
          match readLoop lay isec fuel fs1
              (size - min size (min (readW (fs1.store isec) 0 - offset) (512 - offset % 512)))
              (offset + min size (min (readW (fs1.store isec) 0 - offset) (512 - offset % 512))) with
          | none => none
          | some (rest, fs2) =>
            some ((List.range (min size (min (readW (fs1.store isec) 0 - offset)
                (512 - offset % 512)))).map
                (fun i => fs1.store (so.getD 4294967295) (offset % 512 + i)) ++ rest, fs2)) = _
  rw [if_neg hs, hw]

theorem byte_to_sector_past {lay : Layout} {fs : FS} {isec pos : Nat}
    (h : ¬ pos < readW (fs.store isec) 0) :
    byte_to_sector lay fs isec pos = some (none, fs) := by
  unfold byte_to_sector
  rw [if_neg h]

/-- Updating the contents of a materialised data sector changes no `secAt`:
data sectors are distinct from every index sector by tree injectivity. -/
theorem secAt_upd_data {lay : Layout} {fs : FS} {isec b : Nat}
    (hwf : WF lay fs isec) (hbv : validP (Pos.dat b) = true)
    (hnz : secAt lay fs isec (Pos.dat b) ≠ 0) (g : Nat → Nat) :
    ∀ q, validP q = true →
      secAt lay { fs with store := updFn fs.store (secAt lay fs isec (Pos.dat b)) g }
          isec q = secAt lay fs isec q := by
  set S := secAt lay fs isec (Pos.dat b) with hS
  set fs2 : FS := { fs with store := updFn fs.store S g } with hfs2
  have hstore : ∀ r, r ≠ S → fs2.store r = fs.store r := by
    intro r hr
    show updFn fs.store S g r = fs.store r
    rw [updFn_other _ _ _ hr]
  have main : ∀ n q, pdepth q ≤ n → validP q = true →
      secAt lay fs2 isec q = secAt lay fs isec q := by
    intro n
    induction n with
    | zero =>
        intro q hd hq
        cases q with
        | root => rfl
        | ind => exact absurd hd (by simp [pdepth])
        | dbl => exact absurd hd (by simp [pdepth])
        | lvl1 i => exact absurd hd (by simp [pdepth])
        | dat b1 =>
            exfalso
            have he : pdepth (Pos.dat b1) =
                if b1 < 12 then 1 else if b1 < 140 then 2 else 3 := rfl
            rw [he] at hd
            by_cases h12 : b1 < 12
            · rw [if_pos h12] at hd
              omega
            · rw [if_neg h12] at hd
              by_cases h140 : b1 < 140
              · rw [if_pos h140] at hd
                omega
              · rw [if_neg h140] at hd
                omega
    | succ n ih =>
        intro q hd hq
        by_cases hq0 : q = Pos.root
        · subst hq0
          rfl
        · have hdq : pdepth (parentPos q) ≤ n := by
            rw [pdepth_parent hq0] at hd
            omega
          have hqv : validP (parentPos q) = true := validP_parent hq
          have hπ := ih (parentPos q) hdq hqv
          rw [secAt_parent_eq lay fs2 isec hwf.isec_pos hq0,
            secAt_parent_eq lay fs isec hwf.isec_pos hq0, hπ]
          by_cases hP : secAt lay fs isec (parentPos q) = 0
          · rw [if_pos hP, if_pos hP]
          · rw [if_neg hP, if_neg hP]
            have hPS : secAt lay fs isec (parentPos q) ≠ S := by
              intro he
              have : parentPos q = Pos.dat b := hwf.inj _ _ hqv hbv hP hnz he
              exact parentPos_ne_dat q b this
            rw [hstore _ hPS]
  intro q hq
  exact main (pdepth q) q le_rfl hq

/-- Well-formedness and the walk frame facts survive a data-sector write. -/
theorem wf_upd_data {lay : Layout} {fs : FS} {isec b : Nat}
    (hwf : WF lay fs isec) (hbv : validP (Pos.dat b) = true)
    (hnz : secAt lay fs isec (Pos.dat b) ≠ 0) (g : Nat → Nat) :
    WF lay { fs with store := updFn fs.store (secAt lay fs isec (Pos.dat b)) g }
      isec ∧
    readW (({ fs with store := updFn fs.store (secAt lay fs isec (Pos.dat b)) g} : FS).store
        isec) 0 = readW (fs.store isec) 0 := by
  have hpres := secAt_upd_data hwf hbv hnz g
  have hSisec : secAt lay fs isec (Pos.dat b) ≠ isec := by
    intro he
    have : Pos.dat b = Pos.root :=
      hwf.inj _ _ hbv rfl hnz (by show isec ≠ 0; have := hwf.isec_pos; omega)
        (by rw [he]; rfl)
    cases this
  have hstore_isec :
      ({ fs with store := updFn fs.store (secAt lay fs isec (Pos.dat b)) g} : FS).store
        isec = fs.store isec := by
    show updFn fs.store (secAt lay fs isec (Pos.dat b)) g isec = fs.store isec
    rw [updFn_other _ _ _ (fun he => hSisec he.symm)]
  have hlen : readW (({ fs with store := (updFn fs.store
      (secAt lay fs isec (Pos.dat b)) g) } : FS).store isec) 0 =
      readW (fs.store isec) 0 := by
    rw [hstore_isec]
  refine ⟨⟨hwf.isec_pos, hwf.fm_zero, hwf.cap_le, ?_, ?_, ?_⟩, hlen⟩
  · rw [hlen]
    exact hwf.len_le
  · intro q hqv hqnz
    rw [hpres q hqv] at hqnz ⊢
    exact hwf.good q hqv hqnz
  · intro q r hqv hrv hqnz hrnz heq
    rw [hpres q hqv] at hqnz heq
    rw [hpres r hrv] at hrnz heq
    exact hwf.inj q r hqv hrv hqnz hrnz heq

/-! ### The read loop returns exactly min(size, length - offset) bytes -/

theorem readLoop_count {lay : Layout} (hlay : LayoutOK lay) {isec : Nat} :
    ∀ fuel size offset (fs : FS) (bs : List Nat) (fs1 : FS), size ≤ fuel →
      WF lay fs isec →
      readLoop lay isec fuel fs size offset = some (bs, fs1) →
      bs.length = min size (readW (fs.store isec) 0 - offset) := by
  intro fuel
  induction fuel with
  | zero =>
      intro size offset fs bs fs1 hsz hwf hr
      have hs0 : size = 0 := by omega
      subst hs0
      have : readLoop lay isec 0 fs 0 offset = some ([], fs) := rfl
      rw [this] at hr
      obtain ⟨hbs, _⟩ := Prod.mk.injEq .. ▸ Option.some.inj hr
      rw [← hbs]
      simp
  | succ fuel ih =>
      intro size offset fs bs fs1 hsz hwf hr
      by_cases hs0 : size = 0
      · subst hs0
        have : readLoop lay isec (fuel + 1) fs 0 offset = some ([], fs) := rfl
        rw [this] at hr
        obtain ⟨hbs, _⟩ := Prod.mk.injEq .. ▸ Option.some.inj hr
        rw [← hbs]
        simp
      · by_cases hoff : offset < readW (fs.store isec) 0
        · have hmaxp : offset < MAXB := by
            have := hwf.len_le
            omega
          rcases walk_spec hlay hwf hoff hmaxp with hw | ⟨fsx, hw, hfr, hnzx⟩
          · rw [readLoop_succ_none hs0 hw] at hr
            cases hr
          · rw [readLoop_succ hs0 hw] at hr
            rw [hfr.len] at hr
            have hchunk : min size (min (readW (fs.store isec) 0 - offset)
                (512 - offset % 512)) ≠ 0 := by
              have h1 : 1 ≤ readW (fs.store isec) 0 - offset := by omega
              have h2 : 1 ≤ 512 - offset % 512 := by
                have := Nat.mod_lt offset (show 0 < 512 by omega)
                omega
              simp only [Nat.min_def]
              split_ifs <;> omega
            rw [if_neg hchunk] at hr
            cases hrec : readLoop lay isec fuel fsx
                (size - min size (min (readW (fs.store isec) 0 - offset) (512 - offset % 512)))
                (offset + min size (min (readW (fs.store isec) 0 - offset) (512 - offset % 512)))
              with
            | none =>
                rw [hrec] at hr
                cases hr
            | some p =>
                rw [hrec] at hr
                obtain ⟨rest, fs2⟩ := p
                have hrl := ih _ _ _ _ _ (by
                    have : 1 ≤ min size (min (readW (fs.store isec) 0 - offset)
                        (512 - offset % 512)) := by omega
                    omega)
                  hfr.wf hrec
                rw [hfr.len] at hrl
                obtain ⟨hbs, _⟩ := Prod.mk.injEq .. ▸ Option.some.inj hr
                rw [← hbs]
                rw [List.length_append, List.length_map, List.length_range, hrl]
                have hA : 1 ≤ readW (fs.store isec) 0 - offset := by omega
                simp only [Nat.min_def] at *
                split_ifs at * <;> omega
        · rw [readLoop_succ hs0 (byte_to_sector_past hoff)] at hr
          have hchunk : min size (min (readW (fs.store isec) 0 - offset)
              (512 - offset % 512)) = 0 := by
            have : readW (fs.store isec) 0 - offset = 0 := by omega
            rw [this]
            simp
          rw [if_pos hchunk] at hr
          obtain ⟨hbs, _⟩ := Prod.mk.injEq .. ▸ Option.some.inj hr
          rw [← hbs]
          have : readW (fs.store isec) 0 - offset = 0 := by omega
          rw [this]
          simp

/-- Well-formedness for states whose index tree is empty (every slot of the
inode sector beyond the length word is zero). -/
theorem wf_of_empty_tree (fs : FS) (isec : Nat)
    (h1 : 0 < isec) (h2 : fs.fm 0 = true) (h3 : fs.fm isec = true)
    (h4 : isec < fs.cap) (h5 : fs.cap ≤ 4294967296)
    (h6 : readW (fs.store isec) 0 ≤ MAXB)
    (hslots : ∀ off, 4 ≤ off → readW (fs.store isec) off = 0) :
    WF layA fs isec := by
  have hz : ∀ p, p ≠ Pos.root → secAt layA fs isec p = 0 := by
    intro p hp
    cases p with
    | root => exact absurd rfl hp
    | ind =>
        show readW (fs.store isec) 56 = 0
        exact hslots 56 (by omega)
    | dbl =>
        show readW (fs.store isec) 60 = 0
        exact hslots 60 (by omega)
    | lvl1 i =>
        show (if readW (fs.store isec) 60 = 0 then 0
          else readW (fs.store (readW (fs.store isec) 60)) (4 * i)) = 0
        rw [if_pos (hslots 60 (by omega))]
    | dat b =>
        show (if b < 12 then readW (fs.store isec) (8 + 4 * b)
          else if b < 140 then
            (if readW (fs.store isec) 56 = 0 then 0
             else readW (fs.store (readW (fs.store isec) 56)) (4 * (b - 12)))
          else
            (if readW (fs.store isec) 60 = 0 then 0
             else if readW (fs.store (readW (fs.store isec) 60))
                 (4 * ((b - 140) / 128)) = 0 then 0
             else readW (fs.store (readW (fs.store (readW (fs.store isec) 60))
                 (4 * ((b - 140) / 128)))) (4 * ((b - 140) % 128)))) = 0
        by_cases h12 : b < 12
        · rw [if_pos h12]
          exact hslots (8 + 4 * b) (by omega)
        · rw [if_neg h12]
          by_cases h140 : b < 140
          · rw [if_pos h140, if_pos (hslots 56 (by omega))]
          · rw [if_neg h140, if_pos (hslots 60 (by omega))]
  refine ⟨h1, h2, h5, h6, ?_, ?_⟩
  · intro p hpv hnz
    by_cases hp : p = Pos.root
    · subst hp
      exact ⟨h4, h3⟩
    · rw [hz p hp] at hnz
      exact absurd rfl hnz
  · intro p q hpv hqv hnzp hnzq heq
    by_cases hp : p = Pos.root
    · by_cases hq : q = Pos.root
      · rw [hp, hq]
      · rw [hz q hq] at hnzq
        exact absurd rfl hnzq
    · rw [hz p hp] at hnzp
      exact absurd rfl hnzp

/-- C5: whenever `inode_read_at` returns (it can also panic inside the walk,
see C3/C4), the byte count is exactly `min n (max 0 (length - offset))` —
truncated subtraction over `Nat` is exactly that formula. -/
theorem c5_read_exact_count (fs : FS) (isec n offset : Nat) (bs : List Nat)
    (fs1 : FS) (hwf : WF layA fs isec)
    (hr : inode_read_at fs isec n offset = some (bs, fs1)) :
    bs.length = min n (readW (fs.store isec) 0 - offset) :=
  readLoop_count layA_ok n n offset fs bs fs1 le_rfl hwf hr

/-- A sparse inode at sector 1 of length 600 with no data blocks, used as
the C5 witness state. -/
def stC5 : FS :=
  ⟨fun s i => if s = 1 ∧ i = 0 then 88 else if s = 1 ∧ i = 1 then 2 else 0,
   fun s => decide (s < 2), 100⟩

theorem stC5_wf : WF layA stC5 1 := by
  have hb : ∀ j, 4 ≤ j → stC5.store 1 j = 0 := by
    intro j hj
    show (if 1 = 1 ∧ j = 0 then 88 else if 1 = 1 ∧ j = 1 then 2 else 0) = 0
    rw [if_neg (by rintro ⟨_, h⟩; omega), if_neg (by rintro ⟨_, h⟩; omega)]
  refine wf_of_empty_tree stC5 1 (by omega) (by decide) (by decide) (by decide)
    (by decide) (by decide) ?_
  intro off hoff
  unfold readW
  rw [hb off (by omega), hb (off + 1) (by omega), hb (off + 2) (by omega),
    hb (off + 3) (by omega)]

/-- Witness for C5: reading 700 bytes at offset 0 from the length-600 sparse
inode `stC5` succeeds and returns exactly 600 bytes. -/
theorem c5_witness :
    (inode_read_at stC5 1 700 0).map (fun r => r.1.length) = some 600 := by
  have hs : (inode_read_at stC5 1 700 0).isSome = true := by decide
  obtain ⟨⟨bs, fs1⟩, hr⟩ := Option.isSome_iff_exists.mp hs
  have hc := c5_read_exact_count stC5 1 700 0 bs fs1 stC5_wf hr
  rw [hr]
  show some bs.length = some 600
  rw [hc]
  decide

/-- The read loop over fully materialised blocks is pure: it returns exactly
the stored bytes of the addressed data sectors and leaves the state
untouched. -/
theorem readLoop_pure {lay : Layout} {isec : Nat} :
    ∀ fuel size offset (fs : FS), size ≤ fuel → WF lay fs isec →
      offset + size ≤ readW (fs.store isec) 0 →
      (∀ o, offset ≤ o → o < offset + size →
        secAt lay fs isec (Pos.dat (o / 512)) ≠ 0) →
      readLoop lay isec fuel fs size offset =
        some ((List.range size).map (fun k =>
          fs.store (secAt lay fs isec (Pos.dat ((offset + k) / 512)))
            ((offset + k) % 512)), fs) := by
  intro fuel
  induction fuel with
  | zero =>
      intro size offset fs hsz hwf hlen hblocks
      have hs0 : size = 0 := by omega
      subst hs0
      rfl
  | succ fuel ih =>
      intro size offset fs hsz hwf hlen hblocks
      by_cases hs0 : size = 0
      · subst hs0
        rfl
      · have hoff : offset < readW (fs.store isec) 0 := by omega
        have hS : secAt lay fs isec (Pos.dat (offset / 512)) ≠ 0 :=
          hblocks offset le_rfl (by omega)
        have hw := walk_pure hoff hS
        rw [readLoop_succ hs0 hw]
        set c := min size (min (readW (fs.store isec) 0 - offset) (512 - offset % 512))
          with hc
        have hcle : c ≤ size := by
          rw [hc]
          exact min_le_left _ _
        have hc512 : c ≤ 512 - offset % 512 := by
          rw [hc]
          calc min size (min (readW (fs.store isec) 0 - offset) (512 - offset % 512))
              ≤ min (readW (fs.store isec) 0 - offset) (512 - offset % 512) :=
                min_le_right _ _
            _ ≤ 512 - offset % 512 := min_le_right _ _
        have hmod : offset % 512 < 512 := Nat.mod_lt offset (by omega)
        have hcne : ¬ c = 0 := by
          rw [hc]
          have h1 : 1 ≤ readW (fs.store isec) 0 - offset := by omega
          have h2 : 1 ≤ 512 - offset % 512 := by omega
          simp only [Nat.min_def]
          split_ifs <;> omega
        rw [if_neg hcne]
        rw [ih (size - c) (offset + c) fs (by omega) hwf (by omega)
          (by
            intro o ho1 ho2
            exact hblocks o (by omega) (by omega))]
        have hsplit : size = c + (size - c) := by omega
        have hchunkEq : (List.range c).map
            (fun i => fs.store ((some (secAt lay fs isec
              (Pos.dat (offset / 512)))).getD 4294967295) (offset % 512 + i)) =
            (List.range c).map (fun k =>
              fs.store (secAt lay fs isec (Pos.dat ((offset + k) / 512)))
                ((offset + k) % 512)) := by
          refine List.map_congr_left ?_
          intro i hi
          have hic : i < c := List.mem_range.mp hi
          have hdiv : (offset + i) / 512 = offset / 512 := by omega
          have hmod2 : (offset + i) % 512 = offset % 512 + i := by omega
          rw [hdiv, hmod2]
          rfl
        have hrest : (List.range (size - c)).map (fun k =>
            fs.store (secAt lay fs isec (Pos.dat ((offset + c + k) / 512)))
              ((offset + c + k) % 512)) =
            (List.range (size - c)).map ((fun k =>
              fs.store (secAt lay fs isec (Pos.dat ((offset + k) / 512)))
                ((offset + k) % 512)) ∘ (fun x => c + x)) := by
          refine List.map_congr_left ?_
          intro k hk
          show fs.store (secAt lay fs isec (Pos.dat ((offset + c + k) / 512)))
              ((offset + c + k) % 512) =
            fs.store (secAt lay fs isec (Pos.dat ((offset + (c + k)) / 512)))
              ((offset + (c + k)) % 512)
          rw [Nat.add_assoc]
        rw [hchunkEq, hrest]
        show some (_ ++ List.map _ (List.range (size - c)), fs) = _
        rw [← List.map_map, ← List.map_append, ← List.range_add c (size - c),
          ← hsplit]

/-! ### The write loop -/

theorem writeLoopA_succ {lay : Layout} {isec : Nat} {buf : Nat → Nat}
    {length fuel size offset written : Nat} {fs fsx : FS} {so : Option Nat}
    (hs : size ≠ 0) (hw : byte_to_sector lay fs isec offset = some (so, fsx)) :
    writeLoopA lay isec buf length (fuel + 1) fs written size offset =
      (if min size (min (length - offset) (512 - offset % 512)) = 0
       then some (written, fsx)
       else writeLoopA lay isec buf length fuel
         { fsx with store := (updFn fsx.store (so.getD 4294967295)
             (writeChunk (fsx.store (so.getD 4294967295)) (offset % 512) buf written
               (min size (min (length - offset) (512 - offset % 512))))) }
         (written + min size (min (length - offset) (512 - offset % 512)))
         (size - min size (min (length - offset) (512 - offset % 512)))
         (offset + min size (min (length - offset) (512 - offset % 512)))) := by
  show (if size = 0 then some (written, fs)
    else match byte_to_sector lay fs isec offset with
      | none => none
      | some (so, fs1) =>
        if min size (min (length - offset) (512 - offset % 512)) = 0
        then some (written, fs1)
        else writeLoopA lay isec buf length fuel
          { fs1 with store := (updFn fs1.store (so.getD 4294967295)
              (writeChunk (fs1.store (so.getD 4294967295)) (offset % 512) buf written
                (min size (min (length - offset) (512 - offset % 512))))) }
          (written + min size (min (length - offset) (512 - offset % 512)))
          (size - min size (min (length - offset) (512 - offset % 512)))
          (offset + min size (min (length - offset) (512 - offset % 512)))) = _
  rw [if_neg hs, hw]

theorem writeLoopA_succ_none {lay : Layout} {isec : Nat} {buf : Nat → Nat}
    {length fuel size offset written : Nat} {fs : FS} (hs : size ≠ 0)
    (hw : byte_to_sector lay fs isec offset = none) :
    writeLoopA lay isec buf length (fuel + 1) fs written size offset = none := by
  show (if size = 0 then some (written, fs)
    else match byte_to_sector lay fs isec offset with
      | none => none
      | some (so, fs1) =>
        if min size (min (length - offset) (512 - offset % 512)) = 0
        then some (written, fs1)
        else writeLoopA lay isec buf length fuel
          { fs1 with store := (updFn fs1.store (so.getD 4294967295)
              (writeChunk (fs1.store (so.getD 4294967295)) (offset % 512) buf written
                (min size (min (length - offset) (512 - offset % 512))))) }
          (written + min size (min (length - offset) (512 - offset % 512)))
          (size - min size (min (length - offset) (512 - offset % 512)))
          (offset + min size (min (length - offset) (512 - offset % 512)))) = _
  rw [if_neg hs, hw]

/-- Postcondition of a completed (non-panicking) run of the src/inode.c
write loop below the pre-extended `length`. -/
structure WriteOut (lay : Layout) (isec : Nat) (buf : Nat → Nat)
    (written size offset : Nat) (fs fs1 : FS) : Prop where
  wf : WF lay fs1 isec
  pres : ∀ q, validP q = true → secAt lay fs isec q ≠ 0 →
      secAt lay fs1 isec q = secAt lay fs isec q
  len : readW (fs1.store isec) 0 = readW (fs.store isec) 0
  cap_eq : fs1.cap = fs.cap
  fm_mono : ∀ r, fs.fm r = true → fs1.fm r = true
  content : ∀ o, offset ≤ o → o < offset + size →
      secAt lay fs1 isec (Pos.dat (o / 512)) ≠ 0 ∧
      fs1.store (secAt lay fs1 isec (Pos.dat (o / 512))) (o % 512) =
        buf (written + (o - offset))
  early : ∀ b j, validP (Pos.dat b) = true → secAt lay fs isec (Pos.dat b) ≠ 0 →
      512 * b + j < offset → j < 512 →
      fs1.store (secAt lay fs isec (Pos.dat b)) j =
        fs.store (secAt lay fs isec (Pos.dat b)) j

/-- The write loop of src/inode.c below the pre-extended length either
panics on free-map exhaustion or writes the full `size` bytes of the buffer
into the (on-demand allocated) data sectors of blocks
`offset/512 .. (offset+size-1)/512`, leaving earlier file bytes intact. -/
theorem writeLoopA_spec {lay : Layout} (hlay : LayoutOK lay) {isec : Nat}
    {buf : Nat → Nat} {length : Nat} :
    ∀ fuel size offset written (fs : FS), size ≤ fuel → WF lay fs isec →
      offset + size ≤ length → readW (fs.store isec) 0 = length →
      writeLoopA lay isec buf length fuel fs written size offset = none ∨
      ∃ fs1, writeLoopA lay isec buf length fuel fs written size offset =
          some (written + size, fs1) ∧
        WriteOut lay isec buf written size offset fs fs1 := by
  intro fuel
  induction fuel with
  | zero =>
      intro size offset written fs hsz hwf hle hlen
      have hs0 : size = 0 := by omega
      subst hs0
      right
      refine ⟨fs, rfl, ?_⟩
      exact ⟨hwf, fun _ _ _ => rfl, rfl, rfl, fun _ h => h,
        fun o ho1 ho2 => absurd ho2 (by omega), fun _ _ _ _ _ _ => rfl⟩
  | succ fuel ih =>
      intro size offset written fs hsz hwf hle hlen
      by_cases hs0 : size = 0
      · subst hs0
        right
        refine ⟨fs, rfl, ?_⟩
        exact ⟨hwf, fun _ _ _ => rfl, rfl, rfl, fun _ h => h,
          fun o ho1 ho2 => absurd ho2 (by omega), fun _ _ _ _ _ _ => rfl⟩
      · have hoff : offset < readW (fs.store isec) 0 := by omega
        have hmaxp : offset < MAXB := by
          have := hwf.len_le
          omega
        have hlenmax : length ≤ MAXB := by
          have := hwf.len_le
          omega
        rcases walk_spec hlay hwf hoff hmaxp with hw | ⟨fsx, hw, hfr, hnzx⟩
        · left
          exact writeLoopA_succ_none hs0 hw
        · rw [writeLoopA_succ hs0 hw]
          simp only [Option.getD_some]
          set c := min size (min (length - offset) (512 - offset % 512)) with hcdef
          have hmod : offset % 512 < 512 := Nat.mod_lt offset (by omega)
          have hcle : c ≤ size := min_le_left _ _
          have hc512 : c ≤ 512 - offset % 512 :=
            le_trans (min_le_right _ _) (min_le_right _ _)
          have hcne : ¬ c = 0 := by
            rw [hcdef]
            have h1 : 1 ≤ length - offset := by omega
            have h2 : 1 ≤ 512 - offset % 512 := by omega
            simp only [Nat.min_def]
            split_ifs <;> omega
          rw [if_neg hcne]
          set b0 := offset / 512 with hb0
          have hb0v : validP (Pos.dat b0) = true := by
            simp only [validP, decide_eq_true_eq]
            unfold MAXB at hmaxp
            omega
          set S := secAt lay fsx isec (Pos.dat b0) with hSdef
          set g := writeChunk (fsx.store S) (offset % 512) buf written c with hgdef
          set fs2 : FS := { fsx with store := (updFn fsx.store S g) } with hfs2
          have hupd := secAt_upd_data hfr.wf hb0v hnzx g
          obtain ⟨hwf2, hlen2⟩ := wf_upd_data hfr.wf hb0v hnzx g
          have hlen2' : readW (fs2.store isec) 0 = length := by
            rw [hlen2, hfr.len, hlen]
          have hS2 : secAt lay fs2 isec (Pos.dat b0) = S := hupd _ hb0v
          rcases ih (size - c) (offset + c) (written + c) fs2 (by omega) hwf2
              (by omega) hlen2' with hrec | ⟨fs3, hrec, wout⟩
          · left
            rw [hrec]
          · right
            refine ⟨fs3, ?_, ?_⟩
            · rw [hrec]
              have : written + c + (size - c) = written + size := by omega
              rw [this]
            · have hpres12 : ∀ q, validP q = true → secAt lay fs isec q ≠ 0 →
                  secAt lay fs2 isec q = secAt lay fs isec q := by
                intro q hqv hnz
                rw [hupd q hqv, hfr.pres q hqv hnz]
              refine ⟨wout.wf, ?_, ?_, ?_, ?_, ?_, ?_⟩
              · intro q hqv hnz
                have e1 := hpres12 q hqv hnz
                rw [wout.pres q hqv (by rw [e1]; exact hnz), e1]
              · rw [wout.len, hlen2, hfr.len]
              · rw [wout.cap_eq]
                show fsx.cap = fs.cap
                exact hfr.cap_eq
              · intro r hr
                exact wout.fm_mono r (hfr.fm_mono r hr)
              · intro o ho1 ho2
                by_cases hoc : o < offset + c
                · have hdiv : o / 512 = b0 := by
                    rw [hb0]
                    omega
                  have hnz2 : secAt lay fs2 isec (Pos.dat b0) ≠ 0 := by
                    rw [hS2]
                    exact hnzx
                  have e3 : secAt lay fs3 isec (Pos.dat b0) = S := by
                    rw [wout.pres _ hb0v hnz2, hS2]
                  constructor
                  · rw [hdiv, e3]
                    exact hnzx
                  · rw [hdiv, e3]
                    have homod : o % 512 = offset % 512 + (o - offset) := by omega
                    have hearly := wout.early b0 (o % 512) hb0v hnz2
                      (by
                        have : 512 * b0 + o % 512 = o := by omega
                        omega)
                      (by omega)
                    rw [hS2] at hearly
                    rw [hearly]
                    show updFn fsx.store S g S (o % 512) = _
                    rw [updFn_same, hgdef]
                    show (if offset % 512 ≤ o % 512 ∧ o % 512 < offset % 512 + c
                      then buf (written + (o % 512 - offset % 512))
                      else fsx.store S (o % 512)) = _
                    rw [if_pos (by omega)]
                    have : o % 512 - offset % 512 = o - offset := by omega
                    rw [this]
                · obtain ⟨hz1, hz2⟩ := wout.content o (by omega) (by omega)
                  refine ⟨hz1, ?_⟩
                  rw [hz2]
                  have : written + c + (o - (offset + c)) = written + (o - offset) := by
                    omega
                  rw [this]
              · intro b j hbv hnz hbj hj512
                set d := secAt lay fs isec (Pos.dat b) with hddef
                have e1 : secAt lay fsx isec (Pos.dat b) = d := hfr.pres _ hbv hnz
                have e2 : secAt lay fs2 isec (Pos.dat b) = d := by
                  rw [hupd _ hbv, e1]
                have hearly := wout.early b j hbv (by rw [e2]; exact hnz)
                  (by omega) hj512
                rw [e2] at hearly
                rw [hearly]
                have hstep2 : fs2.store d j = fsx.store d j := by
                  by_cases hdS : d = S
                  · have hbb0 : b = b0 := by
                      have := hfr.wf.inj (Pos.dat b) (Pos.dat b0) hbv hb0v
                        (by rw [e1]; exact hnz) hnzx (by rw [e1, hdS])
                      cases this
                      rfl
                    have hjlt : j < offset % 512 := by omega
                    rw [hdS]
                    show updFn fsx.store S g S j = _
                    rw [updFn_same, hgdef]
                    show (if offset % 512 ≤ j ∧ j < offset % 512 + c
                      then buf (written + (j - offset % 512))
                      else fsx.store S j) = _
                    rw [if_neg (by omega)]
                  · show updFn fsx.store S g d j = _
                    rw [updFn_other _ _ _ hdS]
                rw [hstep2]
                have hdst := hfr.dstore b hbv hnz
                rw [← hddef] at hdst
                rw [hdst]

/-! ### Writing the length word, and the C2 round-trip -/

/-- Writing a new length into word 0 of the inode sector changes no index
slot: all slots of the inode sector live at byte offset 4 or beyond. -/
theorem secAt_len_write {lay : Layout} (hlay : LayoutOK lay) {fs : FS}
    {isec : Nat} (hwf : WF lay fs isec) (newlen : Nat) :
    ∀ q, validP q = true →
      secAt lay { fs with store := (updFn fs.store isec
          (writeW (fs.store isec) 0 newlen)) } isec q = secAt lay fs isec q := by
  set fs2 : FS := { fs with store := (updFn fs.store isec
    (writeW (fs.store isec) 0 newlen)) } with hfs2
  have hstore_isec : fs2.store isec = writeW (fs.store isec) 0 newlen := by
    show updFn fs.store isec (writeW (fs.store isec) 0 newlen) isec = _
    rw [updFn_same]
  have hstore_other : ∀ r, r ≠ isec → fs2.store r = fs.store r := by
    intro r hr
    show updFn fs.store isec (writeW (fs.store isec) 0 newlen) r = _
    rw [updFn_other _ _ _ hr]
  have hisec0 : isec ≠ 0 := by
    have := hwf.isec_pos
    omega
  have main : ∀ n q, pdepth q ≤ n → validP q = true →
      secAt lay fs2 isec q = secAt lay fs isec q := by
    intro n
    induction n with
    | zero =>
        intro q hd hq
        cases q with
        | root => rfl
        | ind => exact absurd hd (by simp [pdepth])
        | dbl => exact absurd hd (by simp [pdepth])
        | lvl1 i => exact absurd hd (by simp [pdepth])
        | dat b =>
            exfalso
            have he : pdepth (Pos.dat b) =
                if b < 12 then 1 else if b < 140 then 2 else 3 := rfl
            rw [he] at hd
            by_cases h12 : b < 12
            · rw [if_pos h12] at hd
              omega
            · rw [if_neg h12] at hd
              by_cases h140 : b < 140
              · rw [if_pos h140] at hd
                omega
              · rw [if_neg h140] at hd
                omega
    | succ n ih =>
        intro q hd hq
        by_cases hq0 : q = Pos.root
        · subst hq0
          rfl
        · have hdq : pdepth (parentPos q) ≤ n := by
            rw [pdepth_parent hq0] at hd
            omega
          have hqv : validP (parentPos q) = true := validP_parent hq
          have hπ := ih (parentPos q) hdq hqv
          rw [secAt_parent_eq lay fs2 isec hwf.isec_pos hq0,
            secAt_parent_eq lay fs isec hwf.isec_pos hq0, hπ]
          by_cases hP : secAt lay fs isec (parentPos q) = 0
          · rw [if_pos hP, if_pos hP]
          · rw [if_neg hP, if_neg hP]
            by_cases hPi : secAt lay fs isec (parentPos q) = isec
            · have hpp : parentPos q = Pos.root :=
                hwf.inj _ _ hqv rfl hP hisec0 hPi
              have hoff := root_child_off hlay hq0 hpp
              rw [hPi, hstore_isec,
                readW_writeW_disjoint _ _ _ _ (by omega)]
            · rw [hstore_other _ hPi]
  intro q hq
  exact main (pdepth q) q le_rfl hq

/-- Effect of `cache_write (inode->sector, &length, 0, 4)` before the data
loop of `inode_write_at`: the stored length becomes `newlen`, nothing else
observable changes. -/
theorem wf_len_write {lay : Layout} (hlay : LayoutOK lay) {fs : FS}
    {isec : Nat} (hwf : WF lay fs isec) {newlen : Nat} (hnl : newlen ≤ MAXB) :
    WF lay { fs with store := (updFn fs.store isec
        (writeW (fs.store isec) 0 newlen)) } isec ∧
    readW (({ fs with store := (updFn fs.store isec
        (writeW (fs.store isec) 0 newlen)) } : FS).store isec) 0 = newlen := by
  have hpres := secAt_len_write hlay hwf newlen
  have hstore_isec : ({ fs with store := (updFn fs.store isec
      (writeW (fs.store isec) 0 newlen)) } : FS).store isec =
      writeW (fs.store isec) 0 newlen := by
    show updFn fs.store isec (writeW (fs.store isec) 0 newlen) isec = _
    rw [updFn_same]
  have hrd : readW (({ fs with store := (updFn fs.store isec
      (writeW (fs.store isec) 0 newlen)) } : FS).store isec) 0 = newlen := by
    rw [hstore_isec, readW_writeW_self _ _ _ (by unfold MAXB at hnl; omega)]
  refine ⟨⟨hwf.isec_pos, hwf.fm_zero, hwf.cap_le, by rw [hrd]; exact hnl, ?_, ?_⟩, hrd⟩
  · intro q hqv hnz
    rw [hpres q hqv] at hnz ⊢
    exact hwf.good q hqv hnz
  · intro q r hqv hrv hnzq hnzr heq
    rw [hpres q hqv] at hnzq heq
    rw [hpres r hrv] at hnzr heq
    exact hwf.inj q r hqv hrv hnzq hnzr heq

/-- C2: for a writable inode (`deny_write_cnt = 0`) in a well-formed state
and a write of `n` bytes at `offset` with `offset + n` within the maximum
file size, a successful (non-panicking) `inode_write_at` writes all `n`
bytes, after which the stored length is at least `offset + n` and
`inode_read_at` of the same range returns exactly the written bytes without
changing the state. -/
theorem c2_write_read_roundtrip (fs : FS) (isec n offset : Nat)
    (buf : Nat → Nat) (cnt : Nat) (fs1 : FS)
    (hwf : WF layA fs isec) (hmax : offset + n ≤ MAXB)
    (hw : inode_write_at fs isec 0 buf n offset = some (cnt, fs1)) :
    cnt = n ∧
    offset + n ≤ readW (fs1.store isec) 0 ∧
    inode_read_at fs1 isec n offset = some ((List.range n).map buf, fs1) := by
  have hred : inode_write_at fs isec 0 buf n offset =
      writeLoopA layA isec buf
        (if readW (fs.store isec) 0 < n + offset then n + offset
         else readW (fs.store isec) 0) n
        { fs with store := (updFn fs.store isec (writeW (fs.store isec) 0
          (if readW (fs.store isec) 0 < n + offset then n + offset
           else readW (fs.store isec) 0))) }
        0 n offset := by
    unfold inode_write_at
    rw [if_neg (fun h => h rfl)]
  set L := (if readW (fs.store isec) 0 < n + offset then n + offset
    else readW (fs.store isec) 0) with hLdef
  have hL1 : offset + n ≤ L := by
    rw [hLdef]
    split_ifs <;> omega
  have hL2 : L ≤ MAXB := by
    have := hwf.len_le
    rw [hLdef]
    split_ifs <;> omega
  obtain ⟨hwfW, hrdW⟩ := wf_len_write layA_ok hwf hL2
  rw [hred] at hw
  rcases writeLoopA_spec layA_ok n n offset 0
      { fs with store := (updFn fs.store isec (writeW (fs.store isec) 0 L)) }
      le_rfl hwfW hL1 hrdW with hnone | ⟨fs1x, heq, wout⟩
  · rw [hnone] at hw
    cases hw
  · rw [heq] at hw
    have hcnt : cnt = 0 + n ∧ fs1x = fs1 := by
      have h1 := Option.some.inj hw
      exact ⟨(congrArg Prod.fst h1).symm, congrArg Prod.snd h1⟩
    obtain ⟨hcnt1, hfs1x⟩ := hcnt
    subst hfs1x
    have hlen1 : readW (fs1x.store isec) 0 = L := by
      rw [wout.len, hrdW]
    refine ⟨by omega, by omega, ?_⟩
    have hblocks : ∀ o, offset ≤ o → o < offset + n →
        secAt layA fs1x isec (Pos.dat (o / 512)) ≠ 0 :=
      fun o h1 h2 => (wout.content o h1 h2).1
    have hpure := readLoop_pure n n offset fs1x le_rfl wout.wf
      (by omega) hblocks
    show readLoop layA isec n fs1x n offset = _
    rw [hpure]
    have hmap : (List.range n).map (fun k =>
        fs1x.store (secAt layA fs1x isec (Pos.dat ((offset + k) / 512)))
          ((offset + k) % 512)) = (List.range n).map buf := by
      refine List.map_congr_left ?_
      intro k hk
      have hkn : k < n := List.mem_range.mp hk
      have := (wout.content (offset + k) (by omega) (by omega)).2
      rw [this]
      have : 0 + (offset + k - offset) = k := by omega
      rw [this]
    rw [hmap]

/-- An empty inode at sector 1 over a fresh free map, the C2 witness state. -/
def stC2 : FS := ⟨fun _ _ => 0, fun s => decide (s < 2), 100⟩

theorem stC2_wf : WF layA stC2 1 := by
  refine wf_of_empty_tree stC2 1 (by omega) (by decide) (by decide) (by decide)
    (by decide) (by decide) ?_
  intro off hoff
  rfl

/-- Witness for C2: writing the five bytes 10..14 at offset 0 into the empty
inode `stC2` succeeds with count 5, and reading the range back returns
exactly those bytes. -/
theorem c2_witness :
    ((inode_write_at stC2 1 0 (fun i => i + 10) 5 0).bind (fun r =>
      (inode_read_at r.2 1 5 0).map (fun q => (r.1, q.1)))) =
      some (5, [10, 11, 12, 13, 14]) := by
  have hs : (inode_write_at stC2 1 0 (fun i => i + 10) 5 0).isSome = true := by
    decide
  obtain ⟨⟨cnt, fs1⟩, hw⟩ := Option.isSome_iff_exists.mp hs
  obtain ⟨h1, h2, h3⟩ := c2_write_read_roundtrip stC2 1 5 0 (fun i => i + 10)
    cnt fs1 stC2_wf (by decide) hw
  rw [hw]
  show (inode_read_at fs1 1 5 0).map (fun q => (cnt, q.1)) =
    some (5, [10, 11, 12, 13, 14])
  rw [h3, h1]
  rfl

/-! ### C6 amended: create away from sector 0 -/

/-- C6 (amended): for every sector other than 0, `inode_create` initializes
the inode sector through the cache to a zero page carrying only the length
word (byte offset 0) and the magic word (byte offset 64) — in particular all
pointer slots (direct at bytes 8..55, indirect at 56, double-indirect at 60)
are zero — returns success, and leaves the free-map untouched (the resulting
state keeps `fm` unchanged).  The remaining conjuncts spell out the slot
values of the written page. -/
theorem c6_create_amended (fs : FS) (sector len : Nat) (h : sector ≠ 0) :
    inode_create fs sector len =
      some (true, { fs with store := (updFn fs.store sector
        (writeW (writeW (fun _ => 0) 0 len) 64 INODE_MAGIC)) }) ∧
    (∀ b, b < 12 →
      readW (writeW (writeW (fun _ => 0) 0 len) 64 INODE_MAGIC) (8 + 4 * b) = 0) ∧
    readW (writeW (writeW (fun _ => 0) 0 len) 64 INODE_MAGIC) 56 = 0 ∧
    readW (writeW (writeW (fun _ => 0) 0 len) 64 INODE_MAGIC) 60 = 0 ∧
    readW (writeW (writeW (fun _ => 0) 0 len) 64 INODE_MAGIC) 64 = INODE_MAGIC ∧
    (len < 4294967296 →
      readW (writeW (writeW (fun _ => 0) 0 len) 64 INODE_MAGIC) 0 = len) := by
  refine ⟨?_, ?_, ?_, ?_, ?_, ?_⟩
  · unfold inode_create
    rw [if_neg h]
  · intro b hb
    rw [readW_writeW_disjoint _ _ _ _ (by omega),
      readW_writeW_disjoint _ _ _ _ (by omega), readW_zero]
  · rw [readW_writeW_disjoint _ _ _ _ (by omega),
      readW_writeW_disjoint _ _ _ _ (by omega), readW_zero]
  · rw [readW_writeW_disjoint _ _ _ _ (by omega),
      readW_writeW_disjoint _ _ _ _ (by omega), readW_zero]
  · rw [readW_writeW_self _ _ _ (by decide)]
  · intro hlen
    rw [readW_writeW_disjoint _ _ _ _ (by omega),
      readW_writeW_self _ _ _ hlen]

/-- Witness for the amended C6 at sector 3, length 5 on `stC6`: success,
length 5 stored, direct slot 0, indirect and double-indirect zero, magic
set, and the free-map bit of the first free sector (2) untouched. -/
theorem c6_amended_witness :
    (inode_create stC6 3 5).map (fun r => (r.1, readW (r.2.store 3) 0,
      readW (r.2.store 3) 8, readW (r.2.store 3) 56, readW (r.2.store 3) 60,
      readW (r.2.store 3) 64, r.2.fm 2)) =
      some (true, 5, 0, 0, 0, INODE_MAGIC, false) := by
  have h := (c6_create_amended stC6 3 5 (by omega)).1
  rw [h]
  rfl

/-! ### C10 amended: lockstep of the two write paths on non-extending writes -/

/-- Lockstep relation between a src/inode.c state and a part_001 state for
the same open inode at sector `isec`: equal free-map and capacity, equal
contents of every sector other than the inode sector, and on the inode
sector an equal length word and equal index slots — each 4-byte slot of the
part_001 layout (word `k`, `1 ≤ k ≤ 14`) sits 4 bytes below its src/inode.c
counterpart (word `k + 1`), because src/inode.c interposes the `bool dir`
field at byte 4. -/
structure Rel (isec : Nat) (fa fb : FS) : Prop where
  fm_eq : fa.fm = fb.fm
  cap_eq : fa.cap = fb.cap
  store_eq : ∀ r, r ≠ isec → fa.store r = fb.store r
  len_eq : readW (fa.store isec) 0 = readW (fb.store isec) 0
  slot_eq : ∀ k, 1 ≤ k → k ≤ 14 →
      readW (fa.store isec) (4 * k + 4) = readW (fb.store isec) (4 * k)

/-- For a child of the root, the slot offset under the part_001 layout is
`4 * k` and under the src/inode.c layout `4 * k + 4`, for the same word
index `k` between 1 and 14. -/
theorem root_child_off_AB {p : Pos} (hpr : p ≠ Pos.root)
    (hpp : parentPos p = Pos.root) :
    ∃ k, 1 ≤ k ∧ k ≤ 14 ∧ parentOff layA p = 4 * k + 4 ∧
      parentOff layB p = 4 * k := by
  cases p with
  | root => exact absurd rfl hpr
  | ind => exact ⟨13, by omega, by omega, rfl, rfl⟩
  | dbl => exact ⟨14, by omega, by omega, rfl, rfl⟩
  | lvl1 i =>
      rw [show parentPos (Pos.lvl1 i) = Pos.dbl from rfl] at hpp
      simp at hpp
  | dat b =>
      rw [show parentPos (Pos.dat b) =
        (if b < 12 then Pos.root else if b < 140 then Pos.ind
         else Pos.lvl1 ((b - 140) / 128)) from rfl] at hpp
      by_cases h12 : b < 12
      · refine ⟨b + 1, by omega, by omega, ?_, ?_⟩
        · show (if b < 12 then layA.dirBase + 4 * b else if b < 140 then 4 * (b - 12)
            else 4 * ((b - 140) % 128)) = 4 * (b + 1) + 4
          rw [if_pos h12]
          show 8 + 4 * b = 4 * (b + 1) + 4
          omega
        · show (if b < 12 then layB.dirBase + 4 * b else if b < 140 then 4 * (b - 12)
            else 4 * ((b - 140) % 128)) = 4 * (b + 1)
          rw [if_pos h12]
          show 4 + 4 * b = 4 * (b + 1)
          omega
      · rw [if_neg h12] at hpp
        by_cases h140 : b < 140
        · rw [if_pos h140] at hpp
          simp at hpp
        · rw [if_neg h140] at hpp
          simp at hpp

/-- For a child of a non-root node, the slot offset within the parent sector
does not depend on the layout. -/
theorem nonroot_child_off {p : Pos} (hpp : parentPos p ≠ Pos.root) :
    parentOff layA p = parentOff layB p := by
  cases p with
  | root => exact absurd rfl hpp
  | ind => exact absurd rfl hpp
  | dbl => exact absurd rfl hpp
  | lvl1 i => rfl
  | dat b =>
      rw [show parentPos (Pos.dat b) =
        (if b < 12 then Pos.root else if b < 140 then Pos.ind
         else Pos.lvl1 ((b - 140) / 128)) from rfl] at hpp
      by_cases h12 : b < 12
      · rw [if_pos h12] at hpp
        exact absurd rfl hpp
      · show (if b < 12 then layA.dirBase + 4 * b else if b < 140 then 4 * (b - 12)
          else 4 * ((b - 140) % 128)) =
          (if b < 12 then layB.dirBase + 4 * b else if b < 140 then 4 * (b - 12)
          else 4 * ((b - 140) % 128))
        rw [if_neg h12, if_neg h12]

/-- Related states store the same index tree: `secAt` under the part_001
layout on the part_001 state agrees with `secAt` under the src/inode.c
layout on the src/inode.c state at every valid position. -/
theorem rel_secAt {fa fb : FS} {isec : Nat} (hwfA : WF layA fa isec)
    (hrel : Rel isec fa fb) :
    ∀ q, validP q = true → secAt layB fb isec q = secAt layA fa isec q := by
  have hisec0 : isec ≠ 0 := by
    have := hwfA.isec_pos
    omega
  have main : ∀ n q, pdepth q ≤ n → validP q = true →
      secAt layB fb isec q = secAt layA fa isec q := by
    intro n
    induction n with
    | zero =>
        intro q hd hq
        cases q with
        | root => rfl
        | ind => exact absurd hd (by simp [pdepth])
        | dbl => exact absurd hd (by simp [pdepth])
        | lvl1 i => exact absurd hd (by simp [pdepth])
        | dat b =>
            exfalso
            have he : pdepth (Pos.dat b) =
                if b < 12 then 1 else if b < 140 then 2 else 3 := rfl
            rw [he] at hd
            by_cases h12 : b < 12
            · rw [if_pos h12] at hd
              omega
            · rw [if_neg h12] at hd
              by_cases h140 : b < 140
              · rw [if_pos h140] at hd
                omega
              · rw [if_neg h140] at hd
                omega
    | succ n ih =>
        intro q hd hq
        by_cases hq0 : q = Pos.root
        · subst hq0
          rfl
        · have hdq : pdepth (parentPos q) ≤ n := by
            rw [pdepth_parent hq0] at hd
            omega
          have hqv : validP (parentPos q) = true := validP_parent hq
          have hπ := ih (parentPos q) hdq hqv
          rw [secAt_parent_eq layB fb isec hwfA.isec_pos hq0,
            secAt_parent_eq layA fa isec hwfA.isec_pos hq0, hπ]
          by_cases hP : secAt layA fa isec (parentPos q) = 0
          · rw [if_pos hP, if_pos hP]
          · rw [if_neg hP, if_neg hP]
            by_cases hPi : secAt layA fa isec (parentPos q) = isec
            · have hpp : parentPos q = Pos.root :=
                hwfA.inj _ _ hqv rfl hP hisec0 hPi
              obtain ⟨k, hk1, hk14, hoffA, hoffB⟩ := root_child_off_AB hq0 hpp
              rw [hPi, hoffA, hoffB]
              exact (hrel.slot_eq k hk1 hk14).symm
            · have hppne : parentPos q ≠ Pos.root := by
                intro he
                apply hPi
                rw [he]
                rfl
              rw [← hrel.store_eq _ hPi, ← nonroot_child_off hppne]
  intro q hq
  exact main (pdepth q) q le_rfl hq

/-- Lockstep of one `MODIFY_CACHE` step on related states: both sides panic
together on free-map exhaustion, or both return the same sector (allocating
the same fresh sector into corresponding slots) and stay related. -/
theorem mc_lock {fa fb : FS} {isec : Nat} (hwfA : WF layA fa isec)
    (hrel : Rel isec fa fb) {p : Pos} (hp : validP p = true)
    (hpr : p ≠ Pos.root) (hps : secAt layA fa isec (parentPos p) ≠ 0) :
    (modifyCache fa (secAt layA fa isec (parentPos p)) (parentOff layA p) = none ∧
     modifyCache fb (secAt layA fa isec (parentPos p)) (parentOff layB p) = none) ∨
    ∃ sv fa1 fb1,
      modifyCache fa (secAt layA fa isec (parentPos p)) (parentOff layA p) =
        some (sv, fa1) ∧
      modifyCache fb (secAt layA fa isec (parentPos p)) (parentOff layB p) =
        some (sv, fb1) ∧
      Frame layA isec fa fa1 ∧ Rel isec fa1 fb1 ∧
      secAt layA fa1 isec p = sv ∧ sv ≠ 0 := by
  have hisec0 : isec ≠ 0 := by
    have := hwfA.isec_pos
    omega
  have hfmisec : fa.fm isec = true :=
    (hwfA.good Pos.root rfl (show secAt layA fa isec Pos.root ≠ 0 from hisec0)).2
  have hpv : validP (parentPos p) = true := validP_parent hp
  set tA := secAt layA fa isec (parentPos p) with htA
  have hB : secAt layB fb isec (parentPos p) = tA := by
    rw [htA]
    exact rel_secAt hwfA hrel _ hpv
  have heqA := secAt_parent_eq layA fa isec hwfA.isec_pos hpr
  rw [← htA, if_neg hps] at heqA
  have heqB := secAt_parent_eq layB fb isec hwfA.isec_pos hpr
  rw [hB, if_neg hps] at heqB
  have hq := rel_secAt hwfA hrel p hp
  have hv : readW (fb.store tA) (parentOff layB p) =
      readW (fa.store tA) (parentOff layA p) := by
    rw [← heqA, ← heqB, hq]
  by_cases hz : secAt layA fa isec p = 0
  · have hrA : readW (fa.store tA) (parentOff layA p) = 0 := by
      rw [← heqA]
      exact hz
    have hrB : readW (fb.store tA) (parentOff layB p) = 0 := by
      rw [hv]
      exact hrA
    have hfab : freeAlloc fb.fm fb.cap = freeAlloc fa.fm fa.cap := by
      rw [← hrel.fm_eq, ← hrel.cap_eq]
    cases hsa : freeAlloc fa.fm fa.cap with
    | none =>
        left
        exact ⟨modifyCache_zero_none hrA hsa,
          modifyCache_zero_none hrB (by rw [hfab]; exact hsa)⟩
    | some s =>
        right
        obtain ⟨hfm, hcap⟩ := freeAlloc_spec hsa
        obtain ⟨hfr, hat⟩ := alloc_post layA_ok hwfA hp hpr hps hz hfm hcap
        have hs0 : s ≠ 0 := by
          intro he
          rw [he, hwfA.fm_zero] at hfm
          cases hfm
        have hsisec : s ≠ isec := by
          intro he
          rw [he, hfmisec] at hfm
          cases hfm
        have hfmtA : fa.fm tA = true := (hwfA.good _ hpv hps).2
        have htAs : tA ≠ s := by
          intro he
          rw [he, hfm] at hfmtA
          cases hfmtA
        have hcap32 : s < 4294967296 := by
          have := hwfA.cap_le
          omega
        refine ⟨s, allocUpd fa tA (parentOff layA p) s,
          allocUpd fb tA (parentOff layB p) s,
          modifyCache_zero_some hrA hsa,
          modifyCache_zero_some hrB (by rw [hfab]; exact hsa), hfr, ?_, hat, hs0⟩
        refine ⟨?_, hrel.cap_eq, ?_, ?_, ?_⟩
        · show updFn fa.fm s true = updFn fb.fm s true
          rw [hrel.fm_eq]
        · intro r hrisec
          by_cases hrs : r = s
          · subst hrs
            rw [allocUpd_store_at_s, allocUpd_store_at_s]
          · by_cases hrt : r = tA
            · subst hrt
              have hppne : parentPos p ≠ Pos.root := by
                intro he
                apply hrisec
                rw [htA, he]
                rfl
              rw [allocUpd_store_at_t htAs, allocUpd_store_at_t htAs,
                hrel.store_eq tA hrisec, nonroot_child_off hppne]
            · rw [allocUpd_store_other hrt hrs, allocUpd_store_other hrt hrs,
                hrel.store_eq r hrisec]
        · by_cases hti : tA = isec
          · have hpp : parentPos p = Pos.root := by
              refine hwfA.inj _ _ hpv rfl hps hisec0 ?_
              rw [← htA]
              exact hti
            obtain ⟨k, hk1, hk14, hoffA, hoffB⟩ := root_child_off_AB hpr hpp
            have hA1 : (allocUpd fa tA (parentOff layA p) s).store isec =
                writeW (fa.store isec) (parentOff layA p) s := by
              rw [← hti]
              exact allocUpd_store_at_t htAs
            have hB1 : (allocUpd fb tA (parentOff layB p) s).store isec =
                writeW (fb.store isec) (parentOff layB p) s := by
              rw [← hti]
              exact allocUpd_store_at_t htAs
            rw [hA1, hB1, hoffA, hoffB,
              readW_writeW_disjoint _ _ _ _ (by omega),
              readW_writeW_disjoint _ _ _ _ (by omega)]
            exact hrel.len_eq
          · have hAi : (allocUpd fa tA (parentOff layA p) s).store isec =
                fa.store isec :=
              allocUpd_store_other (fun he => hti he.symm) (fun he => hsisec he.symm)
            have hBi : (allocUpd fb tA (parentOff layB p) s).store isec =
                fb.store isec :=
              allocUpd_store_other (fun he => hti he.symm) (fun he => hsisec he.symm)
            rw [hAi, hBi]
            exact hrel.len_eq
        · intro k hk1 hk14
          by_cases hti : tA = isec
          · have hpp : parentPos p = Pos.root := by
              refine hwfA.inj _ _ hpv rfl hps hisec0 ?_
              rw [← htA]
              exact hti
            obtain ⟨k0, hk01, hk014, hoffA, hoffB⟩ := root_child_off_AB hpr hpp
            have hA1 : (allocUpd fa tA (parentOff layA p) s).store isec =
                writeW (fa.store isec) (parentOff layA p) s := by
              rw [← hti]
              exact allocUpd_store_at_t htAs
            have hB1 : (allocUpd fb tA (parentOff layB p) s).store isec =
                writeW (fb.store isec) (parentOff layB p) s := by
              rw [← hti]
              exact allocUpd_store_at_t htAs
            rw [hA1, hB1, hoffA, hoffB]
            by_cases hkk : k = k0
            · subst hkk
              rw [readW_writeW_self _ _ _ hcap32, readW_writeW_self _ _ _ hcap32]
            · rw [readW_writeW_disjoint _ _ _ _ (by omega),
                readW_writeW_disjoint _ _ _ _ (by omega)]
              exact hrel.slot_eq k hk1 hk14
          · have hAi : (allocUpd fa tA (parentOff layA p) s).store isec =
                fa.store isec :=
              allocUpd_store_other (fun he => hti he.symm) (fun he => hsisec he.symm)
            have hBi : (allocUpd fb tA (parentOff layB p) s).store isec =
                fb.store isec :=
              allocUpd_store_other (fun he => hti he.symm) (fun he => hsisec he.symm)
            rw [hAi, hBi]
            exact hrel.slot_eq k hk1 hk14
  · right
    have hrAne : readW (fa.store tA) (parentOff layA p) ≠ 0 := by
      rw [← heqA]
      exact hz
    have hrBne : readW (fb.store tA) (parentOff layB p) ≠ 0 := by
      rw [hv]
      exact hrAne
    refine ⟨secAt layA fa isec p, fa, fb, ?_, ?_, Frame.refl hwfA, hrel, rfl, hz⟩
    · rw [modifyCache_nonzero hrAne, ← heqA]
    · rw [modifyCache_nonzero hrBne, hv, ← heqA]

/-- Lockstep of a full `byte_to_sector` walk below the stored length on
related states: both sides panic together, or both return the same data
sector with the src/inode.c side satisfying the walk frame and the two
results still related. -/
theorem walk_lock {fa fb : FS} {isec pos : Nat} (hwfA : WF layA fa isec)
    (hrel : Rel isec fa fb) (hpos : pos < readW (fa.store isec) 0)
    (hmax : pos < MAXB) :
    (byte_to_sector layA fa isec pos = none ∧
     byte_to_sector layB fb isec pos = none) ∨
    ∃ sv fa1 fb1,
      byte_to_sector layA fa isec pos = some (some sv, fa1) ∧
      byte_to_sector layB fb isec pos = some (some sv, fb1) ∧
      Frame layA isec fa fa1 ∧ Rel isec fa1 fb1 ∧
      secAt layA fa1 isec (Pos.dat (pos / 512)) = sv ∧ sv ≠ 0 := by
  have hisec0 : isec ≠ 0 := by
    have := hwfA.isec_pos
    omega
  have hposB : pos < readW (fb.store isec) 0 := by
    rw [← hrel.len_eq]
    exact hpos
  have hnum : pos / 512 < 16524 := by
    unfold MAXB at hmax
    omega
  have hpv : validP (Pos.dat (pos / 512)) = true := by
    simp only [validP, decide_eq_true_eq]
    exact hnum
  have hner : Pos.dat (pos / 512) ≠ Pos.root := by
    intro hc
    cases hc
  have hdatPar : parentPos (Pos.dat (pos / 512)) =
      (if pos / 512 < 12 then Pos.root else if pos / 512 < 140 then Pos.ind
       else Pos.lvl1 ((pos / 512 - 140) / 128)) := rfl
  have hdatOffA : parentOff layA (Pos.dat (pos / 512)) =
      (if pos / 512 < 12 then layA.dirBase + 4 * (pos / 512)
       else if pos / 512 < 140 then 4 * (pos / 512 - 12)
       else 4 * ((pos / 512 - 140) % 128)) := rfl
  have hdatOffB : parentOff layB (Pos.dat (pos / 512)) =
      (if pos / 512 < 12 then layB.dirBase + 4 * (pos / 512)
       else if pos / 512 < 140 then 4 * (pos / 512 - 12)
       else 4 * ((pos / 512 - 140) % 128)) := rfl
  by_cases h12 : pos / 512 < 12
  · have hredA : byte_to_sector layA fa isec pos =
        match modifyCache fa isec (layA.dirBase + 4 * (pos / 512)) with
        | none => none
        | some (s, fs1) => some (some s, fs1) := by
      unfold byte_to_sector
      rw [if_pos hpos, if_pos h12]
    have hredB : byte_to_sector layB fb isec pos =
        match modifyCache fb isec (layB.dirBase + 4 * (pos / 512)) with
        | none => none
        | some (s, fs1) => some (some s, fs1) := by
      unfold byte_to_sector
      rw [if_pos hposB, if_pos h12]
    have hppar : secAt layA fa isec (parentPos (Pos.dat (pos / 512))) = isec := by
      rw [hdatPar, if_pos h12]
      rfl
    have hoffA : parentOff layA (Pos.dat (pos / 512)) =
        layA.dirBase + 4 * (pos / 512) := by
      rw [hdatOffA, if_pos h12]
    have hoffB : parentOff layB (Pos.dat (pos / 512)) =
        layB.dirBase + 4 * (pos / 512) := by
      rw [hdatOffB, if_pos h12]
    have hps : secAt layA fa isec (parentPos (Pos.dat (pos / 512))) ≠ 0 := by
      rw [hppar]
      exact hisec0
    rcases mc_lock hwfA hrel hpv hner hps with ⟨hmcA, hmcB⟩ |
      ⟨sv, fa1, fb1, hmcA, hmcB, hfr, hrel1, hat, hsv⟩
    · left
      rw [hppar, hoffA] at hmcA
      rw [hppar, hoffB] at hmcB
      exact ⟨by rw [hredA, hmcA], by rw [hredB, hmcB]⟩
    · right
      rw [hppar, hoffA] at hmcA
      rw [hppar, hoffB] at hmcB
      exact ⟨sv, fa1, fb1, by rw [hredA, hmcA], by rw [hredB, hmcB],
        hfr, hrel1, hat, hsv⟩
  · by_cases h140 : pos / 512 < 140
    · have hredA : byte_to_sector layA fa isec pos =
          match modifyCache fa isec layA.indOff with
          | none => none
          | some (s1, fs1) =>
            match modifyCache fs1 s1 (4 * (pos / 512 - 12)) with
            | none => none
            | some (s2, fs2) => some (some s2, fs2) := by
        unfold byte_to_sector
        rw [if_pos hpos, if_neg h12, if_pos h140]
      have hredB : byte_to_sector layB fb isec pos =
          match modifyCache fb isec layB.indOff with
          | none => none
          | some (s1, fs1) =>
            match modifyCache fs1 s1 (4 * (pos / 512 - 12)) with
            | none => none
            | some (s2, fs2) => some (some s2, fs2) := by
        unfold byte_to_sector
        rw [if_pos hposB, if_neg h12, if_pos h140]
      have hps1 : secAt layA fa isec (parentPos Pos.ind) ≠ 0 := hisec0
      rcases mc_lock hwfA hrel (show validP Pos.ind = true from rfl)
          (by intro hc; cases hc) hps1 with ⟨hmcA1, hmcB1⟩ |
          ⟨s1, fa1, fb1, hmcA1, hmcB1, hfr1, hrel1, hat1, hs1⟩
      · left
        rw [show secAt layA fa isec (parentPos Pos.ind) = isec from rfl,
          show parentOff layA Pos.ind = layA.indOff from rfl] at hmcA1
        rw [show secAt layA fa isec (parentPos Pos.ind) = isec from rfl,
          show parentOff layB Pos.ind = layB.indOff from rfl] at hmcB1
        exact ⟨by rw [hredA, hmcA1], by rw [hredB, hmcB1]⟩
      · rw [show secAt layA fa isec (parentPos Pos.ind) = isec from rfl,
          show parentOff layA Pos.ind = layA.indOff from rfl] at hmcA1
        rw [show secAt layA fa isec (parentPos Pos.ind) = isec from rfl,
          show parentOff layB Pos.ind = layB.indOff from rfl] at hmcB1
        have hredA2 : byte_to_sector layA fa isec pos =
            match modifyCache fa1 s1 (4 * (pos / 512 - 12)) with
            | none => none
            | some (s2, fs2) => some (some s2, fs2) := by
          rw [hredA, hmcA1]
        have hredB2 : byte_to_sector layB fb isec pos =
            match modifyCache fb1 s1 (4 * (pos / 512 - 12)) with
            | none => none
            | some (s2, fs2) => some (some s2, fs2) := by
          rw [hredB, hmcB1]
        have hppar2 : secAt layA fa1 isec (parentPos (Pos.dat (pos / 512))) = s1 := by
          rw [hdatPar, if_neg h12, if_pos h140]
          exact hat1
        have hoffA2 : parentOff layA (Pos.dat (pos / 512)) =
            4 * (pos / 512 - 12) := by
          rw [hdatOffA, if_neg h12, if_pos h140]
        have hoffB2 : parentOff layB (Pos.dat (pos / 512)) =
            4 * (pos / 512 - 12) := by
          rw [hdatOffB, if_neg h12, if_pos h140]
        have hps2 : secAt layA fa1 isec (parentPos (Pos.dat (pos / 512))) ≠ 0 := by
          rw [hppar2]
          exact hs1
        rcases mc_lock hfr1.wf hrel1 hpv hner hps2 with ⟨hmcA2, hmcB2⟩ |
            ⟨s2, fa2, fb2, hmcA2, hmcB2, hfr2, hrel2, hat2, hs2⟩
        · left
          rw [hppar2, hoffA2] at hmcA2
          rw [hppar2, hoffB2] at hmcB2
          exact ⟨by rw [hredA2, hmcA2], by rw [hredB2, hmcB2]⟩
        · right
          rw [hppar2, hoffA2] at hmcA2
          rw [hppar2, hoffB2] at hmcB2
          exact ⟨s2, fa2, fb2, by rw [hredA2, hmcA2], by rw [hredB2, hmcB2],
            Frame.trans hfr1 hfr2, hrel2, hat2, hs2⟩
    · have hredA : byte_to_sector layA fa isec pos =
          match modifyCache fa isec layA.dblOff with
          | none => none
          | some (s1, fs1) =>
            match modifyCache fs1 s1 (4 * ((pos / 512 - 140) / 128)) with
            | none => none
            | some (s2, fs2) =>
              match modifyCache fs2 s2 (4 * ((pos / 512 - 140) % 128)) with
              | none => none
              | some (s3, fs3) => some (some s3, fs3) := by
        unfold byte_to_sector
        rw [if_pos hpos, if_neg h12, if_neg h140]
      have hredB : byte_to_sector layB fb isec pos =
          match modifyCache fb isec layB.dblOff with
          | none => none
          | some (s1, fs1) =>
            match modifyCache fs1 s1 (4 * ((pos / 512 - 140) / 128)) with
            | none => none
            | some (s2, fs2) =>
              match modifyCache fs2 s2 (4 * ((pos / 512 - 140) % 128)) with
              | none => none
              | some (s3, fs3) => some (some s3, fs3) := by
        unfold byte_to_sector
        rw [if_pos hposB, if_neg h12, if_neg h140]
      have hlv : validP (Pos.lvl1 ((pos / 512 - 140) / 128)) = true := by
        simp only [validP, decide_eq_true_eq]
        omega
      have hps1 : secAt layA fa isec (parentPos Pos.dbl) ≠ 0 := hisec0
      rcases mc_lock hwfA hrel (show validP Pos.dbl = true from rfl)
          (by intro hc; cases hc) hps1 with ⟨hmcA1, hmcB1⟩ |
          ⟨s1, fa1, fb1, hmcA1, hmcB1, hfr1, hrel1, hat1, hs1⟩
      · left
        rw [show secAt layA fa isec (parentPos Pos.dbl) = isec from rfl,
          show parentOff layA Pos.dbl = layA.dblOff from rfl] at hmcA1
        rw [show secAt layA fa isec (parentPos Pos.dbl) = isec from rfl,
          show parentOff layB Pos.dbl = layB.dblOff from rfl] at hmcB1
        exact ⟨by rw [hredA, hmcA1], by rw [hredB, hmcB1]⟩
      · rw [show secAt layA fa isec (parentPos Pos.dbl) = isec from rfl,
          show parentOff layA Pos.dbl = layA.dblOff from rfl] at hmcA1
        rw [show secAt layA fa isec (parentPos Pos.dbl) = isec from rfl,
          show parentOff layB Pos.dbl = layB.dblOff from rfl] at hmcB1
        have hredA2 : byte_to_sector layA fa isec pos =
            match modifyCache fa1 s1 (4 * ((pos / 512 - 140) / 128)) with
            | none => none
            | some (s2, fs2) =>
              match modifyCache fs2 s2 (4 * ((pos / 512 - 140) % 128)) with
              | none => none
              | some (s3, fs3) => some (some s3, fs3) := by
          rw [hredA, hmcA1]
        have hredB2 : byte_to_sector layB fb isec pos =
            match modifyCache fb1 s1 (4 * ((pos / 512 - 140) / 128)) with
            | none => none
            | some (s2, fs2) =>
              match modifyCache fs2 s2 (4 * ((pos / 512 - 140) % 128)) with
              | none => none
              | some (s3, fs3) => some (some s3, fs3) := by
          rw [hredB, hmcB1]
        have hppar2 : secAt layA fa1 isec
            (parentPos (Pos.lvl1 ((pos / 512 - 140) / 128))) = s1 := hat1
        have hps2 : secAt layA fa1 isec
            (parentPos (Pos.lvl1 ((pos / 512 - 140) / 128))) ≠ 0 := by
          rw [hppar2]
          exact hs1
        rcases mc_lock hfr1.wf hrel1 hlv (by intro hc; cases hc) hps2 with
            ⟨hmcA2, hmcB2⟩ | ⟨s2, fa2, fb2, hmcA2, hmcB2, hfr2, hrel2, hat2, hs2⟩
        · left
          rw [hppar2, show parentOff layA (Pos.lvl1 ((pos / 512 - 140) / 128)) =
            4 * ((pos / 512 - 140) / 128) from rfl] at hmcA2
          rw [hppar2, show parentOff layB (Pos.lvl1 ((pos / 512 - 140) / 128)) =
            4 * ((pos / 512 - 140) / 128) from rfl] at hmcB2
          exact ⟨by rw [hredA2, hmcA2], by rw [hredB2, hmcB2]⟩
        · rw [hppar2, show parentOff layA (Pos.lvl1 ((pos / 512 - 140) / 128)) =
            4 * ((pos / 512 - 140) / 128) from rfl] at hmcA2
          rw [hppar2, show parentOff layB (Pos.lvl1 ((pos / 512 - 140) / 128)) =
            4 * ((pos / 512 - 140) / 128) from rfl] at hmcB2
          have hredA3 : byte_to_sector layA fa isec pos =
              match modifyCache fa2 s2 (4 * ((pos / 512 - 140) % 128)) with
              | none => none
              | some (s3, fs3) => some (some s3, fs3) := by
            rw [hredA2, hmcA2]
          have hredB3 : byte_to_sector layB fb isec pos =
              match modifyCache fb2 s2 (4 * ((pos / 512 - 140) % 128)) with
              | none => none
              | some (s3, fs3) => some (some s3, fs3) := by
            rw [hredB2, hmcB2]
          have hppar3 : secAt layA fa2 isec
              (parentPos (Pos.dat (pos / 512))) = s2 := by
            rw [hdatPar, if_neg h12, if_neg h140]
            exact hat2
          have hoffA3 : parentOff layA (Pos.dat (pos / 512)) =
              4 * ((pos / 512 - 140) % 128) := by
            rw [hdatOffA, if_neg h12, if_neg h140]
          have hoffB3 : parentOff layB (Pos.dat (pos / 512)) =
              4 * ((pos / 512 - 140) % 128) := by
            rw [hdatOffB, if_neg h12, if_neg h140]
          have hps3 : secAt layA fa2 isec (parentPos (Pos.dat (pos / 512))) ≠ 0 := by
            rw [hppar3]
            exact hs2
          rcases mc_lock hfr2.wf hrel2 hpv hner hps3 with ⟨hmcA3, hmcB3⟩ |
              ⟨s3, fa3, fb3, hmcA3, hmcB3, hfr3, hrel3, hat3, hs3⟩
          · left
            rw [hppar3, hoffA3] at hmcA3
            rw [hppar3, hoffB3] at hmcB3
            exact ⟨by rw [hredA3, hmcA3], by rw [hredB3, hmcB3]⟩
          · right
            rw [hppar3, hoffA3] at hmcA3
            rw [hppar3, hoffB3] at hmcB3
            exact ⟨s3, fa3, fb3, by rw [hredA3, hmcA3], by rw [hredB3, hmcB3],
              Frame.trans (Frame.trans hfr1 hfr2) hfr3, hrel3, hat3, hs3⟩

theorem writeLoopB_succ {lay : Layout} {isec : Nat} {buf : Nat → Nat}
    {fuel size offset written : Nat} {fs fsx : FS} {so : Option Nat}
    (hs : size ≠ 0) (hw : byte_to_sector lay fs isec offset = some (so, fsx)) :
    writeLoopB lay isec buf (fuel + 1) fs written size offset =
      (if min size (min (readW (fsx.store isec) 0 - offset) (512 - offset % 512)) = 0
       then some (written, fsx)
       else writeLoopB lay isec buf fuel
         { fsx with store := (updFn fsx.store (so.getD 4294967295)
             (writeChunk (fsx.store (so.getD 4294967295)) (offset % 512) buf written
               (min size (min (readW (fsx.store isec) 0 - offset)
                 (512 - offset % 512))))) }
         (written + min size (min (readW (fsx.store isec) 0 - offset)
           (512 - offset % 512)))
         (size - min size (min (readW (fsx.store isec) 0 - offset)
           (512 - offset % 512)))
         (offset + min size (min (readW (fsx.store isec) 0 - offset)
           (512 - offset % 512)))) := by
  show (if size = 0 then some (written, fs)
    else match byte_to_sector lay fs isec offset with
      | none => none
      | some (so, fs1) =>
        if min size (min (readW (fs1.store isec) 0 - offset) (512 - offset % 512)) = 0
        then some (written, fs1)
        else writeLoopB lay isec buf fuel
          { fs1 with store := (updFn fs1.store (so.getD 4294967295)
              (writeChunk (fs1.store (so.getD 4294967295)) (offset % 512) buf written
                (min size (min (readW (fs1.store isec) 0 - offset)
                  (512 - offset % 512))))) }
          (written + min size (min (readW (fs1.store isec) 0 - offset)
            (512 - offset % 512)))
          (size - min size (min (readW (fs1.store isec) 0 - offset)
            (512 - offset % 512)))
          (offset + min size (min (readW (fs1.store isec) 0 - offset)
            (512 - offset % 512)))) = _
  rw [if_neg hs, hw]

theorem writeLoopB_succ_none {lay : Layout} {isec : Nat} {buf : Nat → Nat}
    {fuel size offset written : Nat} {fs : FS} (hs : size ≠ 0)
    (hw : byte_to_sector lay fs isec offset = none) :
    writeLoopB lay isec buf (fuel + 1) fs written size offset = none := by
  show (if size = 0 then some (written, fs)
    else match byte_to_sector lay fs isec offset with
      | none => none
      | some (so, fs1) =>
        if min size (min (readW (fs1.store isec) 0 - offset) (512 - offset % 512)) = 0
        then some (written, fs1)
        else writeLoopB lay isec buf fuel
          { fs1 with store := (updFn fs1.store (so.getD 4294967295)
              (writeChunk (fs1.store (so.getD 4294967295)) (offset % 512) buf written
                (min size (min (readW (fs1.store isec) 0 - offset)
                  (512 - offset % 512))))) }
          (written + min size (min (readW (fs1.store isec) 0 - offset)
            (512 - offset % 512)))
          (size - min size (min (readW (fs1.store isec) 0 - offset)
            (512 - offset % 512)))
          (offset + min size (min (readW (fs1.store isec) 0 - offset)
            (512 - offset % 512)))) = _
  rw [if_neg hs, hw]

/-- Lockstep of the two write loops on related states, below the common
stored length `len0` (the non-extending regime): per iteration both sides
compute the same chunk — src/inode.c from its pre-computed local `length`
(= `len0`), part_001 by re-reading the unchanged length word — walk to the
same sector, and write the same bytes; so both panic together or both
return `written + size` with related final states. -/
theorem writeLoop_lock {isec : Nat} {buf : Nat → Nat} (len0 : Nat) :
    ∀ fuel size offset written (fa fb : FS), size ≤ fuel →
      WF layA fa isec → Rel isec fa fb →
      readW (fa.store isec) 0 = len0 → offset + size ≤ len0 →
      (writeLoopA layA isec buf len0 fuel fa written size offset = none ∧
       writeLoopB layB isec buf fuel fb written size offset = none) ∨
      ∃ fa1 fb1,
        writeLoopA layA isec buf len0 fuel fa written size offset =
          some (written + size, fa1) ∧
        writeLoopB layB isec buf fuel fb written size offset =
          some (written + size, fb1) ∧
        Rel isec fa1 fb1 := by
  intro fuel
  induction fuel with
  | zero =>
      intro size offset written fa fb hsz hwfA hrel hlen hle
      have hs0 : size = 0 := by omega
      subst hs0
      right
      exact ⟨fa, fb, rfl, rfl, hrel⟩
  | succ fuel ih =>
      intro size offset written fa fb hsz hwfA hrel hlen hle
      by_cases hs0 : size = 0
      · subst hs0
        right
        exact ⟨fa, fb, rfl, rfl, hrel⟩
      · have hoff : offset < readW (fa.store isec) 0 := by
          rw [hlen]
          omega
        have hmaxp : offset < MAXB := by
          have hlm := hwfA.len_le
          rw [hlen] at hlm
          omega
        rcases walk_lock hwfA hrel hoff hmaxp with ⟨hwA, hwB⟩ |
            ⟨sv, faX, fbX, hwA, hwB, hfr, hrelX, hat, hsv⟩
        · left
          exact ⟨writeLoopA_succ_none hs0 hwA, writeLoopB_succ_none hs0 hwB⟩
        · rw [writeLoopA_succ hs0 hwA, writeLoopB_succ hs0 hwB]
          simp only [Option.getD_some]
          have hlenX : readW (faX.store isec) 0 = len0 := by
            rw [hfr.len, hlen]
          have hlenBX : readW (fbX.store isec) 0 = len0 := by
            rw [← hrelX.len_eq, hlenX]
          rw [hlenBX]
          set c := min size (min (len0 - offset) (512 - offset % 512)) with hcdef
          have hmod : offset % 512 < 512 := Nat.mod_lt offset (by omega)
          have hcle : c ≤ size := min_le_left _ _
          have hc512 : c ≤ 512 - offset % 512 :=
            le_trans (min_le_right _ _) (min_le_right _ _)
          have hcne : ¬ c = 0 := by
            rw [hcdef]
            have h1 : 1 ≤ len0 - offset := by omega
            have h2 : 1 ≤ 512 - offset % 512 := by omega
            simp only [Nat.min_def]
            split_ifs <;> omega
          rw [if_neg hcne, if_neg hcne]
          have hb0v : validP (Pos.dat (offset / 512)) = true := by
            simp only [validP, decide_eq_true_eq]
            unfold MAXB at hmaxp
            omega
          have hnzx : secAt layA faX isec (Pos.dat (offset / 512)) ≠ 0 := by
            rw [hat]
            exact hsv
          have hsvisec : sv ≠ isec := by
            intro he
            have hroot0 : secAt layA faX isec Pos.root ≠ 0 := by
              show isec ≠ 0
              have := hfr.wf.isec_pos
              omega
            have : Pos.dat (offset / 512) = Pos.root :=
              hfr.wf.inj _ _ hb0v rfl hnzx hroot0 (by rw [hat]; exact he)
            cases this
          set gA := writeChunk (faX.store sv) (offset % 512) buf written c with hgA
          set gB := writeChunk (fbX.store sv) (offset % 512) buf written c with hgB
          set fa2 : FS := { faX with store := (updFn faX.store sv gA) } with hfa2
          set fb2 : FS := { fbX with store := (updFn fbX.store sv gB) } with hfb2
          have hA2i : fa2.store isec = faX.store isec := by
            show updFn faX.store sv gA isec = faX.store isec
            rw [updFn_other _ _ _ (fun he => hsvisec he.symm)]
          have hB2i : fb2.store isec = fbX.store isec := by
            show updFn fbX.store sv gB isec = fbX.store isec
            rw [updFn_other _ _ _ (fun he => hsvisec he.symm)]
          have hgAB : gA = gB := by
            rw [hgA, hgB, hrelX.store_eq sv hsvisec]
          have hwf2 : WF layA fa2 isec := by
            have := (wf_upd_data hfr.wf hb0v hnzx gA).1
            rw [hat] at this
            exact this
          have hrel2 : Rel isec fa2 fb2 := by
            refine ⟨hrelX.fm_eq, hrelX.cap_eq, ?_, ?_, ?_⟩
            · intro r hr
              by_cases hrs : r = sv
              · show updFn faX.store sv gA r = updFn fbX.store sv gB r
                rw [hrs, updFn_same, updFn_same, hgAB]
              · show updFn faX.store sv gA r = updFn fbX.store sv gB r
                rw [updFn_other _ _ _ hrs, updFn_other _ _ _ hrs]
                exact hrelX.store_eq r hr
            · rw [hA2i, hB2i]
              exact hrelX.len_eq
            · intro k hk1 hk14
              rw [hA2i, hB2i]
              exact hrelX.slot_eq k hk1 hk14
          have hlen2 : readW (fa2.store isec) 0 = len0 := by
            rw [hA2i, hlenX]
          rcases ih (size - c) (offset + c) (written + c) fa2 fb2 (by omega) hwf2
              hrel2 hlen2 (by omega) with ⟨hrecA, hrecB⟩ |
              ⟨fa3, fb3, hrecA, hrecB, hrel3⟩
          · left
            exact ⟨by rw [hrecA], by rw [hrecB]⟩
          · right
            refine ⟨fa3, fb3, ?_, ?_, hrel3⟩
            · rw [hrecA]
              have : written + c + (size - c) = written + size := by omega
              rw [this]
            · rw [hrecB]
              have : written + c + (size - c) = written + size := by omega
              rw [this]

/-- C10 (amended): on non-extending writes the two implementations agree.
For a well-formed src/inode.c state and a part_001 state related by `Rel`
(same free-map, capacity, non-inode sectors, length word and index slots),
and a write with `offset + size` within the current stored length,
`inode_write_at` of src/inode.c and `inode_write_at` of part_001 either
both panic on free-map exhaustion or both return the same byte count with
the resulting states again related — in particular the same data bytes,
length and free-map.  (The original claim of literal identical behaviour is
refuted by `c10_counterexample`: on extending writes src/inode.c grows the
length first while part_001 truncates at the old length.) -/
theorem c10_inode_write_agree (fa fb : FS) (isec deny size offset : Nat)
    (buf : Nat → Nat) (hwfA : WF layA fa isec) (hrel : Rel isec fa fb)
    (hle : offset + size ≤ readW (fa.store isec) 0) :
    (inode_write_at fa isec deny buf size offset = none ∧
     inode_write_atB fb isec deny buf size offset = none) ∨
    ∃ cnt fa1 fb1,
      inode_write_at fa isec deny buf size offset = some (cnt, fa1) ∧
      inode_write_atB fb isec deny buf size offset = some (cnt, fb1) ∧
      Rel isec fa1 fb1 := by
  by_cases hd : deny ≠ 0
  · right
    refine ⟨0, fa, fb, ?_, ?_, hrel⟩
    · unfold inode_write_at
      rw [if_pos hd]
    · unfold inode_write_atB
      rw [if_pos hd]
  · have hredA : inode_write_at fa isec deny buf size offset =
        writeLoopA layA isec buf
          (if readW (fa.store isec) 0 < size + offset then size + offset
           else readW (fa.store isec) 0) size
          { fa with store := (updFn fa.store isec (writeW (fa.store isec) 0
            (if readW (fa.store isec) 0 < size + offset then size + offset
             else readW (fa.store isec) 0))) }
          0 size offset := by
      unfold inode_write_at
      rw [if_neg hd]
    have hredB : inode_write_atB fb isec deny buf size offset =
        writeLoopB layB isec buf size fb 0 size offset := by
      unfold inode_write_atB
      rw [if_neg hd]
    have hLeq : (if readW (fa.store isec) 0 < size + offset then size + offset
        else readW (fa.store isec) 0) = readW (fa.store isec) 0 :=
      if_neg (by omega)
    rw [hLeq] at hredA
    obtain ⟨hwfW, hrdW⟩ := wf_len_write layA_ok hwfA hwfA.len_le
    have hsi : ({ fa with store := (updFn fa.store isec (writeW (fa.store isec) 0
        (readW (fa.store isec) 0))) } : FS).store isec =
        writeW (fa.store isec) 0 (readW (fa.store isec) 0) := by
      show updFn fa.store isec (writeW (fa.store isec) 0 (readW (fa.store isec) 0))
        isec = _
      rw [updFn_same]
    have hrelW : Rel isec
        { fa with store := (updFn fa.store isec (writeW (fa.store isec) 0
          (readW (fa.store isec) 0))) } fb := by
      refine ⟨hrel.fm_eq, hrel.cap_eq, ?_, ?_, ?_⟩
      · intro r hr
        show updFn fa.store isec (writeW (fa.store isec) 0 (readW (fa.store isec) 0))
          r = fb.store r
        rw [updFn_other _ _ _ hr]
        exact hrel.store_eq r hr
      · rw [hrdW]
        exact hrel.len_eq
      · intro k hk1 hk14
        rw [hsi, readW_writeW_disjoint _ _ _ _ (by omega)]
        exact hrel.slot_eq k hk1 hk14
    rcases writeLoop_lock (readW (fa.store isec) 0) size size offset 0
        { fa with store := (updFn fa.store isec (writeW (fa.store isec) 0
          (readW (fa.store isec) 0))) } fb le_rfl hwfW hrelW hrdW hle with
        ⟨hlA, hlB⟩ | ⟨fa1, fb1, hlA, hlB, hrel1⟩
    · left
      constructor
      · rw [hredA, hlA]
      · rw [hredB, hlB]
    · right
      refine ⟨0 + size, fa1, fb1, ?_, ?_, hrel1⟩
      · rw [hredA, hlA]
      · rw [hredB, hlB]

/-- A sparse inode at sector 1 with stored length 512, zero index slots and
a fresh free map, used as the C10 witness state for both layouts (all slot
words of both layouts read zero, so the state is related to itself). -/
def stC10w : FS :=
  ⟨fun r o => if r = 1 ∧ o = 1 then 2 else 0, fun s => decide (s < 2), 100⟩

theorem stC10w_wf : WF layA stC10w 1 := by
  have hb : ∀ j, 4 ≤ j → stC10w.store 1 j = 0 := by
    intro j hj
    show (if 1 = 1 ∧ j = 1 then 2 else 0) = 0
    rw [if_neg (by rintro ⟨_, h⟩; omega)]
  refine wf_of_empty_tree stC10w 1 (by omega) (by decide) (by decide) (by decide)
    (by decide) (by decide) ?_
  intro off hoff
  unfold readW
  rw [hb off (by omega), hb (off + 1) (by omega), hb (off + 2) (by omega),
    hb (off + 3) (by omega)]

theorem stC10w_rel : Rel 1 stC10w stC10w := by
  have hb : ∀ j, 2 ≤ j → stC10w.store 1 j = 0 := by
    intro j hj
    show (if 1 = 1 ∧ j = 1 then 2 else 0) = 0
    rw [if_neg (by rintro ⟨_, h⟩; omega)]
  refine ⟨rfl, rfl, fun r hr => rfl, rfl, ?_⟩
  intro k hk1 hk14
  show readW (stC10w.store 1) (4 * k + 4) = readW (stC10w.store 1) (4 * k)
  unfold readW
  rw [hb (4 * k + 4) (by omega), hb (4 * k + 4 + 1) (by omega),
    hb (4 * k + 4 + 2) (by omega), hb (4 * k + 4 + 3) (by omega),
    hb (4 * k) (by omega), hb (4 * k + 1) (by omega),
    hb (4 * k + 2) (by omega), hb (4 * k + 3) (by omega)]

/-- Witness for the amended C10: on the related pair (`stC10w`, `stC10w`) a
4-byte write at offset 0 — within the stored length 512 — returns the same
count 4 under both implementations. -/
theorem c10_agree_witness :
    (inode_write_at stC10w 1 0 (fun i => i + 3) 4 0).map (fun r => r.1) =
      (inode_write_atB stC10w 1 0 (fun i => i + 3) 4 0).map (fun r => r.1) ∧
    (inode_write_at stC10w 1 0 (fun i => i + 3) 4 0).map (fun r => r.1) =
      some 4 := by
  have hval : (inode_write_at stC10w 1 0 (fun i => i + 3) 4 0).map
      (fun r => r.1) = some 4 := by
    decide
  rcases c10_inode_write_agree stC10w stC10w 1 0 4 0 (fun i => i + 3) stC10w_wf
      stC10w_rel (by decide) with ⟨hA, hB⟩ | ⟨cnt, fa1, fb1, hA, hB, hrel1⟩
  · rw [hA] at hval
    simp at hval
  · have hc : cnt = 4 := by
      rw [hA] at hval
      simpa using hval
    subst hc
    refine ⟨?_, hval⟩
    rw [hA, hB]
    rfl

end FsSpec
